import Mathlib

/-!
Verification of the jenkins-bt build orchestrator (`src/main.py`).

The program schedules interdependent remote build jobs: it builds a dependency
graph over job aliases (`build_graph`), layers it into phases rooted at a start
alias (`get_topo_sort`), optionally filters excluded aliases
(`filter_excluded_nodes`), and then drives each phase against the remote
service (`build_phase`), aggregating per-job statuses (`resolve_statuses`)
into a phase verdict that the driver loop in `main` consumes.

This file is a shallow embedding of that code:
* Python `Node` objects are identified by their `name` (the source defines
  `__eq__`/`__hash__` by name, and all nodes live in one name-to-node dict),
  so the mutable graph is modelled as an association list from names to
  records of the mutable `inbound` counter and the `children` name list.
* The `while` loop of `get_topo_sort` is modelled with explicit fuel
  (`topoGoF`); `get_topo_sort` supplies fuel `mu m + 1`, which is proved
  sufficient (the result is stable under any larger fuel), capturing
  termination of the source loop.
* Network-backed calls (`get_build_stages`, `get_job_info`) are oracles
  passed in as functions; an absent/empty response is `none`.
* A Python exception that aborts the computation is modelled by `Option`
  results (`none` = the call raised).
* `durationMillis / 1000` is float division in Python; durations play no
  role in any claim, so the embedding uses natural division.
-/

namespace JenkinsBT

/-- `BuildStatus` enum from the source. -/
inductive BuildStatus where
  | IN_PROGRESS
  | SUCCESS
  | FAILED
deriving DecidableEq, Repr

/-- One graph node: the mutable prerequisite counter `inbound` and the
`children` successor list (successors stored by name, the node identity key).
The Python field `name` is the association-list key. -/
structure Node where
  inbound : Int
  children : List String
deriving DecidableEq, Repr

/-- The `name_node_mapping` dict of the source: alias name to node. -/
abbrev NodeMap := List (String × Node)

/-- Dict lookup (first matching key, like a Python dict with unique keys). -/
def lookupNode : NodeMap → String → Option Node
  | [], _ => none
  | (k, v) :: rest, a => if k = a then some v else lookupNode rest a

/-- In-place mutation of the node stored under key `a` (first occurrence). -/
def updateNode : NodeMap → String → (Node → Node) → NodeMap
  | [], _, _ => []
  | (k, v) :: rest, a, f =>
      if k = a then (k, f v) :: rest else (k, v) :: updateNode rest a f

/-- Sum of the positive parts of all `inbound` counters: the termination
measure of the layering loop (each append to a next-queue coincides with an
`inbound` counter stepping from 1 to 0). -/
def mu (m : NodeMap) : Nat := (m.map (fun e => e.2.inbound.toNat)).sum

/-- The successor names of `p` determined by the dependency list: one entry
per edge `(dependent, prerequisite)` whose prerequisite is `p`, in edge
order — exactly what `build_graph` appends to `p`'s `children`. -/
def childrenOf (deps : List (String × String)) (p : String) : List String :=
  (deps.filter (fun d => decide (d.2 = p))).map Prod.fst

/-- Number of dependency edges whose dependent is `a`: the final value of
`a.inbound` after `build_graph`. -/
def inDeg (deps : List (String × String)) (a : String) : Nat :=
  (deps.filter (fun d => decide (d.1 = a))).length

/-- Total number of decrements applied to `a.inbound` after processing the
nodes of `processed` (in order, with multiplicity). -/
def decTotal (deps : List (String × String)) (processed : List String) (a : String) : Nat :=
  (processed.map (fun q => (childrenOf deps q).count a)).sum

/-- `d` directly depends on `p`: the configuration declares the edge. -/
def DepOn (deps : List (String × String)) (d p : String) : Prop := (d, p) ∈ deps

/-- One forward step in the graph: `c` is a successor (child) of `p`. -/
def GStep (deps : List (String × String)) (p c : String) : Prop :=
  c ∈ childrenOf deps p

/-- `a` is reachable from `start` following successor links — the subgraph
`get_topo_sort` can ever see. -/
def Reach (deps : List (String × String)) (start a : String) : Prop :=
  Relation.ReflTransGen (GStep deps) start a

/-- First loop of `build_graph`: `name_node_mapping.setdefault(alias, Node(alias))`
for each alias. -/
def initNodes : NodeMap → List String → NodeMap
  | m, [] => m
  | m, a :: rest =>
      initNodes (if (lookupNode m a).isSome then m else m ++ [(a, ⟨0, []⟩)]) rest

/-- One iteration of the edge loop of `build_graph`:
`dst_node.children.append(src_node); src_node.inbound += 1`.
If either endpoint is undeclared, the Python code raises (`None` lookup
followed by attribute access), modelled as `none`. -/
def addEdge (m : NodeMap) (dep : String × String) : Option NodeMap :=
  match lookupNode m dep.1, lookupNode m dep.2 with
  | some _, some _ =>
      some (updateNode
              (updateNode m dep.2 (fun nd => { nd with children := nd.children ++ [dep.1] }))
              dep.1 (fun nd => { nd with inbound := nd.inbound + 1 }))
  | _, _ => none

/-- The edge loop of `build_graph` over the whole dependency list. -/
def addEdges : NodeMap → List (String × String) → Option NodeMap
  | m, [] => some m
  | m, d :: rest =>
      match addEdge m d with
      | none => none
      | some m' => addEdges m' rest

/-- `build_graph(aliases, dependencies)` from the source: create one node per
alias, then link every edge, failing if an edge endpoint is undeclared. -/
def build_graph (aliases : List String) (deps : List (String × String)) : Option NodeMap :=
  addEdges (initNodes [] aliases) deps

/-- Inner loop body of `get_topo_sort`: `child.inbound -= 1;
if child.inbound == 0: next_queue.append(child)`. (For graphs produced by
`build_graph` every child name is a key of the map, so the `none` branch is
unreachable there.) -/
def decrementChild (m : NodeMap) (next : List String) (c : String) : NodeMap × List String :=
  match lookupNode m c with
  | none => (m, next)
  | some nd =>
      (updateNode m c (fun n => { n with inbound := n.inbound - 1 }),
       if nd.inbound - 1 = 0 then next ++ [c] else next)

/-- Process one node of the current queue: decrement all of its children. -/
def processNode (m : NodeMap) (next : List String) (a : String) : NodeMap × List String :=
  match lookupNode m a with
  | none => (m, next)
  | some nd => nd.children.foldl (fun p c => decrementChild p.1 p.2 c) (m, next)

/-- Process one whole layer: fold the inner loop over the current queue,
collecting the next queue. -/
def processLayer (m : NodeMap) (queue : List String) : NodeMap × List String :=
  queue.foldl (fun p a => processNode p.1 p.2 a) (m, [])

/-- The `while current_queue` loop of `get_topo_sort`, with explicit fuel.
`topoGoF (mu m + 1)` is proved to run the loop to completion (see the
fuel-stability theorem), so the fuel is an artifact of totality, not a
semantic bound. -/
def topoGoF : Nat → NodeMap → List String → List (List String)
  | 0, _, _ => []
  | fuel + 1, m, queue =>
      if queue = [] then []
      else queue :: topoGoF fuel (processLayer m queue).1 (processLayer m queue).2

/-- `get_topo_sort(start_node)` from the source: breadth-first layering of the
graph starting from the queue `[start]`. -/
def get_topo_sort (m : NodeMap) (start : String) : List (List String) :=
  topoGoF (mu m + 1) m [start]

/-- The graph-related prefix of `main`: build the graph, then look the start
alias up (`graph.get(start_point)`; a missing alias yields `None` and the
subsequent `node.children` access in `get_topo_sort` raises), then layer.
`none` models the run dying before any job-related network call: all such
calls happen inside `build_phase`, which `main` only reaches with a plan. -/
def plan_phases (aliases : List String) (deps : List (String × String))
    (start : String) : Option (List (List String)) :=
  match build_graph aliases deps with
  | none => none
  | some g =>
      match lookupNode g start with
      | none => none
      | some _ => some (get_topo_sort g start)

/-- `resolve_statuses` from the source.  Python's `statuses and
statuses.count("SUCCESS") == len(statuses)` tests the list non-empty first;
`not ignore_failed and aborted > 0 or failed > 0` parses as
`(not ignore_failed and aborted > 0) or failed > 0`. -/
def resolve_statuses (statuses : List String) (ignore_failed : Bool) : BuildStatus :=
  if statuses ≠ [] ∧ statuses.count "SUCCESS" = statuses.length then
    BuildStatus.SUCCESS
  else if (ignore_failed = false ∧ 0 < statuses.count "ABORTED") ∨ 0 < statuses.count "FAILED" then
    BuildStatus.FAILED
  else
    BuildStatus.IN_PROGRESS

/-! ### Association-list and measure lemmas -/

theorem lookupNode_updateNode (m : NodeMap) (a b : String) (f : Node → Node) :
    lookupNode (updateNode m a f) b =
      if b = a then (lookupNode m a).map f else lookupNode m b := by
  induction m with
  | nil => simp [lookupNode, updateNode]
  | cons e rest ih =>
      obtain ⟨k, v⟩ := e
      by_cases hk : k = a
      · subst hk
        by_cases hb : b = k
        · subst hb; simp [lookupNode, updateNode]
        · have hkb : ¬ k = b := fun h => hb h.symm
          simp [lookupNode, updateNode, hb, hkb]
      · by_cases hb : k = b
        · subst hb
          have hba : ¬ k = a := hk
          simp [lookupNode, updateNode, hk, fun h : k = a => hba h]
        · simp [lookupNode, updateNode, hk, hb, ih]

theorem mu_append (m₁ m₂ : NodeMap) : mu (m₁ ++ m₂) = mu m₁ + mu m₂ := by
  simp [mu]

theorem mu_updateNode (m : NodeMap) (a : String) (f : Node → Node) (v : Node)
    (h : lookupNode m a = some v) :
    mu (updateNode m a f) + v.inbound.toNat = mu m + (f v).inbound.toNat := by
  induction m with
  | nil => simp [lookupNode] at h
  | cons e rest ih =>
      obtain ⟨k, w⟩ := e
      by_cases hk : k = a
      · subst hk
        simp only [lookupNode, if_pos rfl] at h
        obtain rfl : w = v := by injection h
        simp [updateNode, mu]
        omega
      · simp only [lookupNode, if_neg hk] at h
        have := ih h
        simp [updateNode, hk, mu] at this ⊢
        omega

/-! ### Characterisation of `childrenOf`, `inDeg`, `decTotal` -/

theorem mem_childrenOf (deps : List (String × String)) (p c : String) :
    c ∈ childrenOf deps p ↔ (c, p) ∈ deps := by
  constructor
  · intro h
    simp only [childrenOf, List.mem_map, List.mem_filter, decide_eq_true_eq] at h
    obtain ⟨d, ⟨hd, hp⟩, hc⟩ := h
    have : d = (c, p) := by
      cases d; simp at hp hc; simp [hp, hc]
    exact this ▸ hd
  · intro h
    simp only [childrenOf, List.mem_map, List.mem_filter, decide_eq_true_eq]
    exact ⟨(c, p), ⟨h, rfl⟩, rfl⟩

theorem childrenOf_append (d₁ d₂ : List (String × String)) (p : String) :
    childrenOf (d₁ ++ d₂) p = childrenOf d₁ p ++ childrenOf d₂ p := by
  simp [childrenOf]

theorem inDeg_append (d₁ d₂ : List (String × String)) (a : String) :
    inDeg (d₁ ++ d₂) a = inDeg d₁ a + inDeg d₂ a := by
  simp [inDeg]

theorem childrenOf_single (d : String × String) (p : String) :
    childrenOf [d] p = if d.2 = p then [d.1] else [] := by
  by_cases h : d.2 = p <;> simp [childrenOf, h]

theorem inDeg_single (d : String × String) (a : String) :
    inDeg [d] a = if d.1 = a then 1 else 0 := by
  by_cases h : d.1 = a <;> simp [inDeg, h]

theorem decTotal_nil (deps : List (String × String)) (a : String) :
    decTotal deps [] a = 0 := rfl

theorem decTotal_cons (deps : List (String × String)) (q : String)
    (qs : List String) (a : String) :
    decTotal deps (q :: qs) a = (childrenOf deps q).count a + decTotal deps qs a := by
  simp [decTotal]

theorem decTotal_append (deps : List (String × String)) (p₁ p₂ : List String) (a : String) :
    decTotal deps (p₁ ++ p₂) a = decTotal deps p₁ a + decTotal deps p₂ a := by
  simp [decTotal]

theorem inDeg_pos_of_edge (deps : List (String × String)) (a q : String)
    (h : (a, q) ∈ deps) : 0 < inDeg deps a := by
  have : (a, q) ∈ deps.filter (fun d => decide (d.1 = a)) := by
    simp [List.mem_filter, h]
  simpa [inDeg] using List.length_pos.mpr (List.ne_nil_of_mem this)

/-! ### The per-layer state invariant

`LookState aliases deps f m` says the mutable node map `m` holds exactly the
declared aliases, each with its (never mutated) successor list from the
dependency list and its current `inbound` value `f a`. -/

def LookState (aliases : List String) (deps : List (String × String))
    (f : String → Int) (m : NodeMap) : Prop :=
  ∀ a, lookupNode m a =
    if a ∈ aliases then some ⟨f a, childrenOf deps a⟩ else none

theorem LookState_congr {aliases : List String} {deps : List (String × String)}
    {f g : String → Int} {m : NodeMap}
    (h : LookState aliases deps f m) (hfg : ∀ a, f a = g a) :
    LookState aliases deps g m := by
  intro a
  rw [h a, hfg a]

/-! ### One decrement step -/

theorem decrementChild_spec (aliases : List String) (deps : List (String × String))
    (f : String → Int) (m : NodeMap) (next : List String) (c : String)
    (h : LookState aliases deps f m) (hc : c ∈ aliases) :
    LookState aliases deps (Function.update f c (f c - 1)) (decrementChild m next c).1 ∧
    (decrementChild m next c).2 = next ++ (if f c = 1 then [c] else []) := by
  have hlc : lookupNode m c = some ⟨f c, childrenOf deps c⟩ := by
    rw [h c, if_pos hc]
  constructor
  · intro a
    simp only [decrementChild, hlc]
    rw [lookupNode_updateNode]
    by_cases hac : a = c
    · subst hac
      simp [hlc, hc, Function.update_same]
    · simp [hac, h a, Function.update_noteq hac]
  · simp only [decrementChild, hlc]
    by_cases h1 : f c - 1 = 0
    · have hfc : f c = 1 := by omega
      simp [h1, hfc]
    · have hfc : ¬ f c = 1 := by omega
      simp [h1, hfc]

theorem mu_decrementChild (m : NodeMap) (next : List String) (c : String) :
    mu (decrementChild m next c).1 + ((decrementChild m next c).2).length ≤
      mu m + next.length := by
  cases hlc : lookupNode m c with
  | none => simp [decrementChild, hlc]
  | some nd =>
      have hmu := mu_updateNode m c (fun n => { n with inbound := n.inbound - 1 }) nd hlc
      simp only at hmu
      simp only [decrementChild, hlc]
      by_cases h1 : nd.inbound - 1 = 0
      · simp only [if_pos h1, List.length_append, List.length_cons, List.length_nil]
        omega
      · simp only [if_neg h1]
        omega

/-! ### Folding decrements over one node's children -/

theorem foldDec_spec (aliases : List String) (deps : List (String × String)) :
    ∀ (cs : List String) (f : String → Int) (m : NodeMap) (next : List String),
      LookState aliases deps f m → (∀ c ∈ cs, c ∈ aliases) →
      LookState aliases deps (fun a => f a - (cs.count a : Int))
          (cs.foldl (fun p c => decrementChild p.1 p.2 c) (m, next)).1 ∧
      (∀ a, ((cs.foldl (fun p c => decrementChild p.1 p.2 c) (m, next)).2).count a =
          next.count a + (if 1 ≤ f a ∧ f a ≤ (cs.count a : Int) then 1 else 0)) ∧
      (∀ a ∈ (cs.foldl (fun p c => decrementChild p.1 p.2 c) (m, next)).2,
          a ∈ next ∨ a ∈ cs) := by
  intro cs
  induction cs with
  | nil =>
      intro f m next h _
      refine ⟨LookState_congr h (fun a => by simp), fun a => ?_, fun a ha => Or.inl ha⟩
      have hno : ¬ (1 ≤ f a ∧ f a ≤ ((([] : List String).count a : Nat) : Int)) := by
        simp only [List.count_nil, Nat.cast_zero]
        omega
      rw [List.foldl_nil, if_neg hno, Nat.add_zero]
  | cons x xs ih =>
      intro f m next h hcs
      have hx : x ∈ aliases := hcs x (List.mem_cons_self x xs)
      obtain ⟨h1, h2⟩ := decrementChild_spec aliases deps f m next x h hx
      have hxs : ∀ y ∈ xs, y ∈ aliases := fun y hy => hcs y (List.mem_cons_of_mem x hy)
      obtain ⟨ihs, ihc, ihm⟩ := ih (Function.update f x (f x - 1))
        (decrementChild m next x).1 (decrementChild m next x).2 h1 hxs
      have hfold : (x :: xs).foldl (fun p c => decrementChild p.1 p.2 c) (m, next) =
          xs.foldl (fun p c => decrementChild p.1 p.2 c)
            ((decrementChild m next x).1, (decrementChild m next x).2) := by
        rw [List.foldl_cons]
      refine ⟨?_, ?_, ?_⟩
      · rw [hfold]
        refine LookState_congr ihs (fun b => ?_)
        by_cases hbx : b = x
        · subst hbx
          rw [Function.update_same, List.count_cons_self]
          push_cast
          ring
        · rw [Function.update_noteq hbx]
          have hcc : (x :: xs).count b = xs.count b := by
            simp [List.count_cons, hbx]
          rw [hcc]
      · intro b
        rw [hfold, ihc b, h2, List.count_append]
        by_cases hbx : b = x
        · subst hbx
          rw [Function.update_same, List.count_cons_self]
          have hxx : (if f b = 1 then [b] else []).count b = if f b = 1 then 1 else 0 := by
            by_cases hf : f b = 1 <;> simp [hf]
          rw [hxx]
          have h0 : (0 : Int) ≤ (xs.count b : Int) := Int.natCast_nonneg _
          have hcast : (((xs.count b + 1 : Nat)) : Int) = (xs.count b : Int) + 1 := by
            push_cast
            ring
          rw [hcast]
          split_ifs <;> omega
        · rw [Function.update_noteq hbx]
          have hxx : (if f x = 1 then [x] else []).count b = 0 := by
            by_cases hf : f x = 1 <;> simp [hf, hbx]
          have hcc : (x :: xs).count b = xs.count b := by
            simp [List.count_cons, hbx]
          rw [hxx, hcc]
          omega
      · intro b hb
        rw [hfold] at hb
        rcases ihm b hb with hy | hy
        · rw [h2] at hy
          rcases List.mem_append.mp hy with hz | hz
          · exact Or.inl hz
          · right
            by_cases hf : f x = 1
            · rw [if_pos hf] at hz
              simp only [List.mem_singleton] at hz
              exact hz ▸ List.mem_cons_self x xs
            · rw [if_neg hf] at hz
              simp at hz
        · exact Or.inr (List.mem_cons_of_mem x hy)

/-! ### Processing one queue node, then one whole layer -/

theorem processNode_spec (aliases : List String) (deps : List (String × String))
    (HV1 : ∀ d ∈ deps, d.1 ∈ aliases)
    (f : String → Int) (m : NodeMap) (next : List String) (q : String)
    (h : LookState aliases deps f m) (hq : q ∈ aliases) :
    LookState aliases deps (fun a => f a - ((childrenOf deps q).count a : Int))
        (processNode m next q).1 ∧
    (∀ a, ((processNode m next q).2).count a =
        next.count a +
          (if 1 ≤ f a ∧ f a ≤ ((childrenOf deps q).count a : Int) then 1 else 0)) ∧
    (∀ a ∈ (processNode m next q).2, a ∈ next ∨ a ∈ childrenOf deps q) := by
  have hlq : lookupNode m q = some ⟨f q, childrenOf deps q⟩ := by
    rw [h q, if_pos hq]
  have hch : ∀ c ∈ childrenOf deps q, c ∈ aliases := by
    intro c hc
    rw [mem_childrenOf] at hc
    exact HV1 (c, q) hc
  have hmain := foldDec_spec aliases deps (childrenOf deps q) f m next h hch
  simpa only [processNode, hlq] using hmain

theorem processQueue_spec (aliases : List String) (deps : List (String × String))
    (HV1 : ∀ d ∈ deps, d.1 ∈ aliases) :
    ∀ (qs : List String) (f : String → Int) (m : NodeMap) (next : List String),
      LookState aliases deps f m → (∀ q ∈ qs, q ∈ aliases) →
      LookState aliases deps (fun a => f a - (decTotal deps qs a : Int))
          (qs.foldl (fun p a => processNode p.1 p.2 a) (m, next)).1 ∧
      (∀ a, ((qs.foldl (fun p a => processNode p.1 p.2 a) (m, next)).2).count a =
          next.count a + (if 1 ≤ f a ∧ f a ≤ (decTotal deps qs a : Int) then 1 else 0)) ∧
      (∀ a ∈ (qs.foldl (fun p a => processNode p.1 p.2 a) (m, next)).2,
          a ∈ next ∨ ∃ q ∈ qs, a ∈ childrenOf deps q) := by
  intro qs
  induction qs with
  | nil =>
      intro f m next h _
      refine ⟨LookState_congr h (fun a => by simp [decTotal_nil]), fun a => ?_,
        fun a ha => Or.inl ha⟩
      have hno : ¬ (1 ≤ f a ∧ f a ≤ ((decTotal deps [] a : Nat) : Int)) := by
        rw [decTotal_nil]
        simp only [Nat.cast_zero]
        omega
      rw [List.foldl_nil, if_neg hno, Nat.add_zero]
  | cons q qs' ih =>
      intro f m next h hqs
      have hq : q ∈ aliases := hqs q (List.mem_cons_self q qs')
      obtain ⟨h1, h2, h3⟩ := processNode_spec aliases deps HV1 f m next q h hq
      have hqs' : ∀ y ∈ qs', y ∈ aliases := fun y hy => hqs y (List.mem_cons_of_mem q hy)
      obtain ⟨ihs, ihc, ihm⟩ := ih (fun a => f a - ((childrenOf deps q).count a : Int))
        (processNode m next q).1 (processNode m next q).2 h1 hqs'
      have hfold : (q :: qs').foldl (fun p a => processNode p.1 p.2 a) (m, next) =
          qs'.foldl (fun p a => processNode p.1 p.2 a)
            ((processNode m next q).1, (processNode m next q).2) := by
        rw [List.foldl_cons]
      refine ⟨?_, ?_, ?_⟩
      · rw [hfold]
        refine LookState_congr ihs (fun b => ?_)
        rw [decTotal_cons]
        push_cast
        ring
      · intro b
        rw [hfold, ihc b, h2 b, decTotal_cons]
        have h0 : (0 : Int) ≤ ((childrenOf deps q).count b : Int) := Int.natCast_nonneg _
        have h0' : (0 : Int) ≤ (decTotal deps qs' b : Int) := Int.natCast_nonneg _
        have hcast : (((childrenOf deps q).count b + decTotal deps qs' b : Nat) : Int) =
            ((childrenOf deps q).count b : Int) + (decTotal deps qs' b : Int) := by
          push_cast
          ring
        rw [hcast]
        split_ifs <;> omega
      · intro b hb
        rw [hfold] at hb
        rcases ihm b hb with hy | hy
        · rcases h3 b hy with hz | hz
          · exact Or.inl hz
          · exact Or.inr ⟨q, List.mem_cons_self q qs', hz⟩
        · obtain ⟨q', hq', hz⟩ := hy
          exact Or.inr ⟨q', List.mem_cons_of_mem q hq', hz⟩

theorem processLayer_spec (aliases : List String) (deps : List (String × String))
    (HV1 : ∀ d ∈ deps, d.1 ∈ aliases)
    (f : String → Int) (m : NodeMap) (queue : List String)
    (h : LookState aliases deps f m) (hq : ∀ q ∈ queue, q ∈ aliases) :
    LookState aliases deps (fun a => f a - (decTotal deps queue a : Int))
        (processLayer m queue).1 ∧
    (∀ a, ((processLayer m queue).2).count a =
        if 1 ≤ f a ∧ f a ≤ (decTotal deps queue a : Int) then 1 else 0) ∧
    (∀ a ∈ (processLayer m queue).2, ∃ q ∈ queue, a ∈ childrenOf deps q) := by
  obtain ⟨h1, h2, h3⟩ := processQueue_spec aliases deps HV1 queue f m [] h hq
  refine ⟨h1, fun a => ?_, fun a ha => ?_⟩
  · have := h2 a
    simpa [processLayer] using this
  · have := h3 a (by simpa [processLayer] using ha)
    rcases this with hy | hy
    · simp at hy
    · exact hy

/-! ### The termination measure decreases across a layer -/

theorem mu_foldDec (cs : List String) :
    ∀ (m : NodeMap) (next : List String),
      mu ((cs.foldl (fun p c => decrementChild p.1 p.2 c) (m, next)).1) +
        ((cs.foldl (fun p c => decrementChild p.1 p.2 c) (m, next)).2).length ≤
      mu m + next.length := by
  induction cs with
  | nil => intro m next; simp
  | cons x xs ih =>
      intro m next
      have h1 := mu_decrementChild m next x
      have h2 := ih (decrementChild m next x).1 (decrementChild m next x).2
      calc mu (((x :: xs).foldl (fun p c => decrementChild p.1 p.2 c) (m, next)).1) +
            (((x :: xs).foldl (fun p c => decrementChild p.1 p.2 c) (m, next)).2).length
          = mu ((xs.foldl (fun p c => decrementChild p.1 p.2 c)
              ((decrementChild m next x).1, (decrementChild m next x).2)).1) +
            ((xs.foldl (fun p c => decrementChild p.1 p.2 c)
              ((decrementChild m next x).1, (decrementChild m next x).2)).2).length := by
              rw [List.foldl_cons]
        _ ≤ mu (decrementChild m next x).1 + ((decrementChild m next x).2).length := h2
        _ ≤ mu m + next.length := h1

theorem mu_processNode (m : NodeMap) (next : List String) (q : String) :
    mu ((processNode m next q).1) + ((processNode m next q).2).length ≤
      mu m + next.length := by
  cases hlq : lookupNode m q with
  | none => simp [processNode, hlq]
  | some nd =>
      have := mu_foldDec nd.children m next
      simpa only [processNode, hlq] using this

theorem mu_processQueue (qs : List String) :
    ∀ (m : NodeMap) (next : List String),
      mu ((qs.foldl (fun p a => processNode p.1 p.2 a) (m, next)).1) +
        ((qs.foldl (fun p a => processNode p.1 p.2 a) (m, next)).2).length ≤
      mu m + next.length := by
  induction qs with
  | nil => intro m next; simp
  | cons q qs' ih =>
      intro m next
      have h1 := mu_processNode m next q
      have h2 := ih (processNode m next q).1 (processNode m next q).2
      calc mu (((q :: qs').foldl (fun p a => processNode p.1 p.2 a) (m, next)).1) +
            (((q :: qs').foldl (fun p a => processNode p.1 p.2 a) (m, next)).2).length
          = mu ((qs'.foldl (fun p a => processNode p.1 p.2 a)
              ((processNode m next q).1, (processNode m next q).2)).1) +
            ((qs'.foldl (fun p a => processNode p.1 p.2 a)
              ((processNode m next q).1, (processNode m next q).2)).2).length := by
              rw [List.foldl_cons]
        _ ≤ mu (processNode m next q).1 + ((processNode m next q).2).length := h2
        _ ≤ mu m + next.length := h1

theorem mu_processLayer (m : NodeMap) (queue : List String) :
    mu ((processLayer m queue).1) + ((processLayer m queue).2).length ≤ mu m := by
  have := mu_processQueue queue m []
  simpa [processLayer] using this

/-! ### Master invariant of the layering loop

For the loop state reached after fully processing the layers listed in `P`
(in order), with `queue` the layer about to be emitted, the theorem
characterises the remaining output: the count equation says a node is
emitted (beyond the current queue) exactly once, exactly if its cumulative
decrement total passes its in-degree during the remaining run; the
layer-indexed bound says any node of a later layer had its in-degree reached
by the decrements of the preceding layers. -/

theorem topoGoF_nil (fuel : Nat) (m : NodeMap) : topoGoF fuel m [] = [] := by
  cases fuel <;> rfl

theorem topoGoF_spec (aliases : List String) (deps : List (String × String))
    (HV1 : ∀ d ∈ deps, d.1 ∈ aliases)
    (R : String → Prop)
    (hRstep : ∀ q a, R q → a ∈ childrenOf deps q → R a) :
    ∀ (fuel : Nat) (m : NodeMap) (queue P : List String),
      mu m < fuel →
      LookState aliases deps
        (fun a => (inDeg deps a : Int) - (decTotal deps P a : Int)) m →
      (∀ a ∈ queue, a ∈ aliases) →
      queue.Nodup →
      (∀ a ∈ queue, R a) →
      (∀ a, (topoGoF fuel m queue).flatten.count a = queue.count a +
          (if decTotal deps P a < inDeg deps a ∧
              inDeg deps a ≤ decTotal deps (P ++ (topoGoF fuel m queue).flatten) a
           then 1 else 0)) ∧
      (∀ L ∈ topoGoF fuel m queue, L.Nodup) ∧
      (queue ≠ [] → (topoGoF fuel m queue)[0]? = some queue) ∧
      (∀ k L, (topoGoF fuel m queue)[k + 1]? = some L →
          ∀ a ∈ L, inDeg deps a ≤
            decTotal deps (P ++ ((topoGoF fuel m queue).take (k + 1)).flatten) a) ∧
      (∀ a ∈ (topoGoF fuel m queue).flatten, R a) := by
  intro fuel
  induction fuel with
  | zero => intro m queue P hmu; exact absurd hmu (Nat.not_lt_zero _)
  | succ n ihn =>
      intro m queue P hmu hls hqa hnd hqr
      by_cases hqe : queue = []
      · subst hqe
        have hz : topoGoF (n + 1) m [] = [] := topoGoF_nil (n + 1) m
        rw [hz]
        refine ⟨fun a => ?_, by simp, by simp, by simp, by simp⟩
        have hj : (([] : List (List String)).flatten) = ([] : List String) := rfl
        rw [hj, List.append_nil, if_neg (by omega)]
        simp
      · have hunf : topoGoF (n + 1) m queue =
            queue :: topoGoF n (processLayer m queue).1 (processLayer m queue).2 := by
          simp [topoGoF, hqe]
        obtain ⟨hls', hcnt, hmem⟩ := processLayer_spec aliases deps HV1
          (fun a => (inDeg deps a : Int) - (decTotal deps P a : Int)) m queue hls hqa
        have hcnt' : ∀ a, ((processLayer m queue).2).count a =
            if decTotal deps P a < inDeg deps a ∧
               inDeg deps a ≤ decTotal deps (P ++ queue) a then 1 else 0 := by
          intro a
          rw [hcnt a]
          have eA : decTotal deps (P ++ queue) a =
              decTotal deps P a + decTotal deps queue a := decTotal_append deps P queue a
          by_cases hc : 1 ≤ (inDeg deps a : Int) - (decTotal deps P a : Int) ∧
              (inDeg deps a : Int) - (decTotal deps P a : Int) ≤ (decTotal deps queue a : Int)
          · rw [if_pos hc, if_pos (by omega)]
          · rw [if_neg hc, if_neg (by omega)]
        have hls'' : LookState aliases deps
            (fun a => (inDeg deps a : Int) - (decTotal deps (P ++ queue) a : Int))
            (processLayer m queue).1 := by
          refine LookState_congr hls' (fun a => ?_)
          rw [decTotal_append]
          push_cast
          ring
        have hnextal : ∀ a ∈ (processLayer m queue).2, a ∈ aliases := by
          intro a ha
          obtain ⟨q, _, hc⟩ := hmem a ha
          rw [mem_childrenOf] at hc
          exact HV1 (a, q) hc
        have hnextR : ∀ a ∈ (processLayer m queue).2, R a := by
          intro a ha
          obtain ⟨q, hq, hc⟩ := hmem a ha
          exact hRstep q a (hqr q hq) hc
        have hnextnd : ((processLayer m queue).2).Nodup := by
          rw [List.nodup_iff_count_le_one]
          intro a
          rw [hcnt' a]
          split_ifs <;> omega
        by_cases hne : (processLayer m queue).2 = []
        · have htail : topoGoF n (processLayer m queue).1 (processLayer m queue).2 = [] := by
            rw [hne]; exact topoGoF_nil n _
          rw [hunf, htail]
          refine ⟨fun a => ?_, ?_, ?_, ?_, ?_⟩
          · have hj : (([queue] : List (List String)).flatten) = queue ++ [] := rfl
            rw [hj, List.append_nil]
            have h0 : ((processLayer m queue).2).count a = 0 := by rw [hne]; rfl
            rw [hcnt' a] at h0
            have hP : P ++ queue = P ++ queue := rfl
            omega
          · intro L hL
            rcases List.mem_cons.mp hL with h | h
            · exact h ▸ hnd
            · simp at h
          · intro _; exact List.getElem?_cons_zero
          · intro k L hk
            simp at hk
          · intro a ha
            have : a ∈ queue := by simpa using ha
            exact hqr a this
        · have hmune : mu (processLayer m queue).1 < n := by
            have hle := mu_processLayer m queue
            have hlen : 1 ≤ ((processLayer m queue).2).length :=
              List.length_pos.mpr hne
            omega
          obtain ⟨ih1, ih2, ih3, ih4, ih5⟩ := ihn (processLayer m queue).1
            (processLayer m queue).2 (P ++ queue) hmune hls'' hnextal hnextnd hnextR
          rw [hunf]
          refine ⟨fun a => ?_, ?_, ?_, ?_, ?_⟩
          · rw [List.flatten_cons, List.count_append, ih1 a, hcnt' a]
            rw [← List.append_assoc]
            have eA : decTotal deps (P ++ queue) a =
                decTotal deps P a + decTotal deps queue a := decTotal_append deps P queue a
            have eB : decTotal deps ((P ++ queue) ++
                (topoGoF n (processLayer m queue).1 (processLayer m queue).2).flatten) a =
                decTotal deps (P ++ queue) a +
                  decTotal deps
                    (topoGoF n (processLayer m queue).1 (processLayer m queue).2).flatten a :=
              decTotal_append deps _ _ a
            split_ifs <;> omega
          · intro L hL
            rcases List.mem_cons.mp hL with h | h
            · exact h ▸ hnd
            · exact ih2 L h
          · intro _; exact List.getElem?_cons_zero
          · intro k L hk a haL
            rw [List.getElem?_cons_succ] at hk
            cases k with
            | zero =>
                rw [ih3 hne] at hk
                have hLn : (processLayer m queue).2 = L := by injection hk
                subst hLn
                have hc1 : 0 < ((processLayer m queue).2).count a :=
                  List.count_pos_iff.mpr haL
                rw [hcnt' a] at hc1
                have hcond : decTotal deps P a < inDeg deps a ∧
                    inDeg deps a ≤ decTotal deps (P ++ queue) a := by
                  by_contra hno
                  rw [if_neg hno] at hc1
                  exact absurd hc1 (by omega)
                have htake : ((queue ::
                    topoGoF n (processLayer m queue).1 (processLayer m queue).2).take 1).flatten =
                    queue := by simp
                rw [htake]
                exact hcond.2
            | succ j =>
                have hbound := ih4 j L hk a haL
                have htake : ((queue ::
                    topoGoF n (processLayer m queue).1 (processLayer m queue).2).take
                      (j + 1 + 1)).flatten =
                    queue ++ ((topoGoF n (processLayer m queue).1
                      (processLayer m queue).2).take (j + 1)).flatten := by
                  rw [List.take_succ_cons, List.flatten_cons]
                rw [htake, ← List.append_assoc]
                exact hbound
          · intro a ha
            rw [List.flatten_cons] at ha
            rcases List.mem_append.mp ha with h | h
            · exact hqr a h
            · exact ih5 a h

/-! ### The loop terminates: enough fuel makes the result stable -/

theorem topoGoF_fuel_stable :
    ∀ (f₁ f₂ : Nat) (m : NodeMap) (queue : List String),
      mu m < f₁ → mu m < f₂ → topoGoF f₁ m queue = topoGoF f₂ m queue := by
  intro f₁
  induction f₁ with
  | zero => intro f₂ m queue h1 _; exact absurd h1 (Nat.not_lt_zero _)
  | succ n ih =>
      intro f₂ m queue h1 h2
      cases f₂ with
      | zero => exact absurd h2 (Nat.not_lt_zero _)
      | succ n₂ =>
          by_cases hq : queue = []
          · subst hq
            rw [topoGoF_nil, topoGoF_nil]
          · have hu1 : topoGoF (n + 1) m queue =
                queue :: topoGoF n (processLayer m queue).1 (processLayer m queue).2 := by
              simp [topoGoF, hq]
            have hu2 : topoGoF (n₂ + 1) m queue =
                queue :: topoGoF n₂ (processLayer m queue).1 (processLayer m queue).2 := by
              simp [topoGoF, hq]
            rw [hu1, hu2]
            by_cases hne : (processLayer m queue).2 = []
            · rw [hne, topoGoF_nil, topoGoF_nil]
            · have hle := mu_processLayer m queue
              have hlen : 1 ≤ ((processLayer m queue).2).length := List.length_pos.mpr hne
              rw [ih n₂ (processLayer m queue).1 (processLayer m queue).2
                (by omega) (by omega)]

/-- The loop emits at most `mu m + 1` layers (every layer after the first
consumes at least one unit of the measure). -/
theorem topoGoF_length :
    ∀ (fuel : Nat) (m : NodeMap) (queue : List String),
      (topoGoF fuel m queue).length ≤ mu m + 1 := by
  intro fuel
  induction fuel with
  | zero => intro m queue; simp [topoGoF]
  | succ n ih =>
      intro m queue
      by_cases hq : queue = []
      · subst hq
        rw [topoGoF_nil]
        simp
      · have hu : topoGoF (n + 1) m queue =
            queue :: topoGoF n (processLayer m queue).1 (processLayer m queue).2 := by
          simp [topoGoF, hq]
        rw [hu]
        by_cases hne : (processLayer m queue).2 = []
        · rw [hne, topoGoF_nil]
          simp
        · have hle := mu_processLayer m queue
          have hlen : 1 ≤ ((processLayer m queue).2).length := List.length_pos.mpr hne
          have := ih (processLayer m queue).1 (processLayer m queue).2
          simp only [List.length_cons]
          omega

/-! ### Characterisation of `build_graph` -/

theorem lookupNode_append (m₁ m₂ : NodeMap) (b : String) :
    lookupNode (m₁ ++ m₂) b =
      match lookupNode m₁ b with
      | some v => some v
      | none => lookupNode m₂ b := by
  induction m₁ with
  | nil => simp [lookupNode]
  | cons e rest ih =>
      obtain ⟨k, v⟩ := e
      by_cases hk : k = b <;> simp [lookupNode, hk, ih]

theorem mu_initNodes : ∀ (rest : List String) (m : NodeMap),
    mu (initNodes m rest) = mu m := by
  intro rest
  induction rest with
  | nil => intro m; rfl
  | cons a rest' ih =>
      intro m
      by_cases hs : (lookupNode m a).isSome
      · simp only [initNodes, if_pos hs]
        exact ih m
      · simp only [initNodes, if_neg hs]
        rw [ih (m ++ [(a, (⟨0, []⟩ : Node))]), mu_append]
        simp [mu]

theorem initNodes_spec :
    ∀ (rest : List String) (m : NodeMap) (S : List String),
      (∀ a, lookupNode m a = if a ∈ S then some ⟨0, []⟩ else none) →
      ∀ a, lookupNode (initNodes m rest) a =
        if a ∈ S ∨ a ∈ rest then some ⟨0, []⟩ else none := by
  intro rest
  induction rest with
  | nil =>
      intro m S h a
      simp only [initNodes]
      rw [h a]
      by_cases hs : a ∈ S
      · rw [if_pos hs, if_pos (Or.inl hs)]
      · rw [if_neg hs, if_neg (by simp [hs])]
  | cons x rest' ih =>
      intro m S h a
      by_cases hs : (lookupNode m x).isSome
      · have hxS : x ∈ S := by
          rw [h x] at hs
          by_cases hxs : x ∈ S
          · exact hxs
          · rw [if_neg hxs] at hs; simp at hs
        simp only [initNodes, if_pos hs]
        rw [ih m S h a]
        have hiff : (a ∈ S ∨ a ∈ rest') ↔ (a ∈ S ∨ a ∈ x :: rest') := by
          constructor
          · rintro (h1 | h1)
            · exact Or.inl h1
            · exact Or.inr (List.mem_cons_of_mem x h1)
          · rintro (h1 | h1)
            · exact Or.inl h1
            · rcases List.mem_cons.mp h1 with h2 | h2
              · exact Or.inl (h2 ▸ hxS)
              · exact Or.inr h2
        by_cases hcond : a ∈ S ∨ a ∈ rest'
        · rw [if_pos hcond, if_pos (hiff.mp hcond)]
        · rw [if_neg hcond, if_neg (fun hc => hcond (hiff.mpr hc))]
      · simp only [initNodes, if_neg hs]
        have hxn : lookupNode m x = none := by
          cases hlx : lookupNode m x
          · rfl
          · rw [hlx] at hs; simp at hs
        have h' : ∀ b, lookupNode (m ++ [(x, ⟨0, []⟩)]) b =
            if b ∈ S ++ [x] then some ⟨0, []⟩ else none := by
          intro b
          rw [lookupNode_append, h b]
          by_cases hbS : b ∈ S
          · rw [if_pos hbS, if_pos (List.mem_append.mpr (Or.inl hbS))]
          · rw [if_neg hbS]
            by_cases hbx : x = b
            · subst hbx
              simp [lookupNode]
            · have : ¬ b ∈ S ++ [x] := by
                intro hc
                rcases List.mem_append.mp hc with h1 | h1
                · exact hbS h1
                · simp at h1; exact hbx h1.symm
              rw [if_neg this]
              simp [lookupNode, hbx]
        rw [ih (m ++ [(x, (⟨0, []⟩ : Node))]) (S ++ [x]) h' a]
        have hiff : (a ∈ S ++ [x] ∨ a ∈ rest') ↔ (a ∈ S ∨ a ∈ x :: rest') := by
          simp [List.mem_append, List.mem_cons]
          tauto
        by_cases hcond : a ∈ S ++ [x] ∨ a ∈ rest'
        · rw [if_pos hcond, if_pos (hiff.mp hcond)]
        · rw [if_neg hcond, if_neg (fun hc => hcond (hiff.mpr hc))]

theorem initNodes_lookState (aliases : List String) :
    LookState aliases [] (fun a => (inDeg [] a : Int)) (initNodes [] aliases) := by
  intro a
  have h := initNodes_spec aliases [] [] (fun b => by simp [lookupNode]) a
  simp only [List.not_mem_nil, false_or] at h
  rw [h]
  by_cases ha : a ∈ aliases
  · rw [if_pos ha, if_pos ha]
    rfl
  · rw [if_neg ha, if_neg ha]

theorem addEdge_spec (aliases : List String) (pr : List (String × String))
    (m : NodeMap) (d : String × String)
    (h : LookState aliases pr (fun a => (inDeg pr a : Int)) m)
    (h1 : d.1 ∈ aliases) (h2 : d.2 ∈ aliases) :
    ∃ m', addEdge m d = some m' ∧
      LookState aliases (pr ++ [d]) (fun a => (inDeg (pr ++ [d]) a : Int)) m' ∧
      mu m' = mu m + 1 := by
  have ld1 : lookupNode m d.1 = some ⟨(inDeg pr d.1 : Int), childrenOf pr d.1⟩ := by
    rw [h d.1, if_pos h1]
  have ld2 : lookupNode m d.2 = some ⟨(inDeg pr d.2 : Int), childrenOf pr d.2⟩ := by
    rw [h d.2, if_pos h2]
  have hsome : addEdge m d = some
      (updateNode (updateNode m d.2 (fun nd => { nd with children := nd.children ++ [d.1] }))
        d.1 (fun nd => { nd with inbound := nd.inbound + 1 })) := by
    rw [addEdge, ld1, ld2]
  refine ⟨_, hsome, ?_, ?_⟩
  · intro a
    show lookupNode (updateNode (updateNode m d.2
        (fun nd => { nd with children := nd.children ++ [d.1] }))
        d.1 (fun nd => { nd with inbound := nd.inbound + 1 })) a =
      if a ∈ aliases then
        some ⟨((inDeg (pr ++ [d]) a : Nat) : Int), childrenOf (pr ++ [d]) a⟩
      else none
    rw [lookupNode_updateNode]
    by_cases ha1 : a = d.1
    · rw [if_pos ha1, lookupNode_updateNode]
      have haa : a ∈ aliases := ha1 ▸ h1
      have hinv : inDeg (pr ++ [d]) a = inDeg pr a + 1 := by
        rw [inDeg_append, inDeg_single, if_pos ha1.symm]
      by_cases h12 : d.1 = d.2
      · have ha2 : a = d.2 := ha1.trans h12
        have hchv : childrenOf (pr ++ [d]) a = childrenOf pr a ++ [d.1] := by
          rw [childrenOf_append, childrenOf_single, if_pos ha2.symm]
        rw [if_pos h12, ld2, if_pos haa, hinv, hchv, ← ha2]
        simp only [Option.map_some']
        push_cast
        rfl
      · have ha2 : ¬ a = d.2 := fun hc => h12 (ha1.symm.trans hc)
        have hchv : childrenOf (pr ++ [d]) a = childrenOf pr a := by
          rw [childrenOf_append, childrenOf_single,
            if_neg (fun hc : d.2 = a => ha2 hc.symm)]
          simp
        rw [if_neg h12, ld1, if_pos haa, hinv, hchv, ← ha1]
        simp only [Option.map_some']
        push_cast
        rfl
    · rw [if_neg ha1, lookupNode_updateNode]
      have hinv : inDeg (pr ++ [d]) a = inDeg pr a := by
        rw [inDeg_append, inDeg_single, if_neg (fun hc : d.1 = a => ha1 hc.symm)]
        simp
      by_cases ha2 : a = d.2
      · have haa : a ∈ aliases := ha2 ▸ h2
        have hchv : childrenOf (pr ++ [d]) a = childrenOf pr a ++ [d.1] := by
          rw [childrenOf_append, childrenOf_single, if_pos ha2.symm]
        rw [if_pos ha2, ld2, if_pos haa, hinv, hchv, ← ha2]
        simp only [Option.map_some']
      · have hchv : childrenOf (pr ++ [d]) a = childrenOf pr a := by
          rw [childrenOf_append, childrenOf_single,
            if_neg (fun hc : d.2 = a => ha2 hc.symm)]
          simp
        rw [if_neg ha2, h a, hinv, hchv]
  · have hmu1 : mu (updateNode m d.2
        (fun nd => { nd with children := nd.children ++ [d.1] })) = mu m := by
      have := mu_updateNode m d.2
        (fun nd => { nd with children := nd.children ++ [d.1] })
        ⟨(inDeg pr d.2 : Int), childrenOf pr d.2⟩ ld2
      simp only at this
      omega
    have ld1' : lookupNode (updateNode m d.2
        (fun nd => { nd with children := nd.children ++ [d.1] })) d.1 =
        some ⟨(inDeg pr d.1 : Int),
          childrenOf pr d.1 ++ (if d.1 = d.2 then [d.1] else [])⟩ := by
      rw [lookupNode_updateNode]
      by_cases he : d.1 = d.2
      · rw [if_pos he, ← he] at *
        rw [ld1]
        simp [he]
      · rw [if_neg he, ld1, if_neg he]
        simp
    have := mu_updateNode _ d.1 (fun nd => { nd with inbound := nd.inbound + 1 }) _ ld1'
    simp only at this
    have hnn : (0 : Int) ≤ (inDeg pr d.1 : Int) := Int.natCast_nonneg _
    omega

theorem addEdges_spec (aliases : List String) :
    ∀ (rest pr : List (String × String)) (m : NodeMap),
      LookState aliases pr (fun a => (inDeg pr a : Int)) m →
      (∀ d ∈ rest, d.1 ∈ aliases ∧ d.2 ∈ aliases) →
      ∃ m', addEdges m rest = some m' ∧
        LookState aliases (pr ++ rest) (fun a => (inDeg (pr ++ rest) a : Int)) m' ∧
        mu m' = mu m + rest.length := by
  intro rest
  induction rest with
  | nil =>
      intro pr m h _
      refine ⟨m, rfl, ?_, by simp⟩
      simpa using h
  | cons d rest' ih =>
      intro pr m h hv
      obtain ⟨hd1, hd2⟩ := hv d (List.mem_cons_self d rest')
      obtain ⟨m₁, he, hls₁, hmu₁⟩ := addEdge_spec aliases pr m d h hd1 hd2
      have hv' : ∀ e ∈ rest', e.1 ∈ aliases ∧ e.2 ∈ aliases :=
        fun e he' => hv e (List.mem_cons_of_mem d he')
      obtain ⟨m', he', hls', hmu'⟩ := ih (pr ++ [d]) m₁ hls₁ hv'
      refine ⟨m', ?_, ?_, by simp [hmu', hmu₁]; omega⟩
      · simp only [addEdges, he]
        exact he'
      · have : pr ++ [d] ++ rest' = pr ++ (d :: rest') := by simp
        rw [this] at hls'
        exact hls'

theorem build_graph_spec (aliases : List String) (deps : List (String × String))
    (HV : ∀ d ∈ deps, d.1 ∈ aliases ∧ d.2 ∈ aliases) :
    ∃ m, build_graph aliases deps = some m ∧
      LookState aliases deps (fun a => (inDeg deps a : Int)) m ∧
      mu m = deps.length := by
  obtain ⟨m, he, hls, hmu⟩ := addEdges_spec aliases deps [] (initNodes [] aliases)
    (initNodes_lookState aliases) HV
  refine ⟨m, he, by simpa using hls, ?_⟩
  rw [hmu, mu_initNodes]
  simp [mu]

theorem addEdges_none (aliases : List String) :
    ∀ (rest pr : List (String × String)) (m : NodeMap),
      LookState aliases pr (fun a => (inDeg pr a : Int)) m →
      (∃ d ∈ rest, d.1 ∉ aliases ∨ d.2 ∉ aliases) →
      addEdges m rest = none := by
  intro rest
  induction rest with
  | nil =>
      intro pr m _ hbad
      obtain ⟨d, hd, _⟩ := hbad
      simp at hd
  | cons d rest' ih =>
      intro pr m h hbad
      by_cases hgood : d.1 ∈ aliases ∧ d.2 ∈ aliases
      · obtain ⟨m₁, he, hls₁, _⟩ := addEdge_spec aliases pr m d h hgood.1 hgood.2
        have hbad' : ∃ e ∈ rest', e.1 ∉ aliases ∨ e.2 ∉ aliases := by
          obtain ⟨e, he', hb⟩ := hbad
          rcases List.mem_cons.mp he' with h1 | h1
          · subst h1
            rcases hb with hb | hb
            · exact absurd hgood.1 hb
            · exact absurd hgood.2 hb
          · exact ⟨e, h1, hb⟩
        simp only [addEdges, he]
        exact ih (pr ++ [d]) m₁ hls₁ hbad'
      · have : addEdge m d = none := by
          rw [addEdge]
          rcases Decidable.not_and_iff_or_not.mp hgood with hb | hb
          · have : lookupNode m d.1 = none := by rw [h d.1, if_neg hb]
            rw [this]
          · have h2n : lookupNode m d.2 = none := by rw [h d.2, if_neg hb]
            rw [h2n]
            cases lookupNode m d.1 <;> rfl
        simp only [addEdges, this]

theorem build_graph_none (aliases : List String) (deps : List (String × String))
    (h : ∃ d ∈ deps, d.1 ∉ aliases ∨ d.2 ∉ aliases) :
    build_graph aliases deps = none :=
  addEdges_none aliases deps [] (initNodes [] aliases) (initNodes_lookState aliases) h

/-! ### Generic counting lemmas -/

theorem sum_map_le_length {α : Type} (l : List α) (f : α → Nat)
    (h : ∀ x ∈ l, f x ≤ 1) : (l.map f).sum ≤ l.length := by
  induction l with
  | nil => simp
  | cons x l' ih =>
      simp only [List.map_cons, List.sum_cons, List.length_cons]
      have h1 := h x (List.mem_cons_self x l')
      have h2 := ih (fun y hy => h y (List.mem_cons_of_mem x hy))
      omega

theorem length_le_sum_map {α : Type} (l : List α) (f : α → Nat)
    (h : ∀ x ∈ l, 1 ≤ f x) : l.length ≤ (l.map f).sum := by
  induction l with
  | nil => simp
  | cons x l' ih =>
      simp only [List.map_cons, List.sum_cons, List.length_cons]
      have h1 := h x (List.mem_cons_self x l')
      have h2 := ih (fun y hy => h y (List.mem_cons_of_mem x hy))
      omega

theorem sum_map_all_one {α : Type} (l : List α) (f : α → Nat)
    (h1 : ∀ x ∈ l, f x ≤ 1) (h2 : l.length ≤ (l.map f).sum) :
    ∀ x ∈ l, f x = 1 := by
  induction l with
  | nil => simp
  | cons x l' ih =>
      intro y hy
      have hx1 := h1 x (List.mem_cons_self x l')
      have hl1 : ∀ z ∈ l', f z ≤ 1 := fun z hz => h1 z (List.mem_cons_of_mem x hz)
      have hsum := sum_map_le_length l' f hl1
      simp only [List.map_cons, List.sum_cons, List.length_cons] at h2
      have hfx : f x = 1 := by omega
      rcases List.mem_cons.mp hy with h | h
      · exact h ▸ hfx
      · exact ih hl1 (by omega) y h

theorem exists_pos_of_sum_pos {α : Type} (l : List α) (f : α → Nat)
    (h : 0 < (l.map f).sum) : ∃ x ∈ l, 0 < f x := by
  induction l with
  | nil => simp at h
  | cons x l' ih =>
      simp only [List.map_cons, List.sum_cons] at h
      by_cases hx : 0 < f x
      · exact ⟨x, List.mem_cons_self x l', hx⟩
      · have : 0 < (l'.map f).sum := by omega
        obtain ⟨y, hy, hfy⟩ := ih this
        exact ⟨y, List.mem_cons_of_mem x hy, hfy⟩

/-! ### Grouping decrements by edge -/

theorem childrenOf_cons (d : String × String) (ds : List (String × String)) (q : String) :
    childrenOf (d :: ds) q = (if d.2 = q then [d.1] else []) ++ childrenOf ds q := by
  by_cases h : d.2 = q <;> simp [childrenOf, h]

theorem sum_indicator_count (E : List String) (x : String) :
    (E.map (fun q => if x = q then 1 else 0)).sum = E.count x := by
  induction E with
  | nil => simp
  | cons e E' ih =>
      rw [List.map_cons, List.sum_cons, ih, List.count_cons]
      simp only [beq_iff_eq]
      by_cases h : x = e
      · rw [if_pos h, if_pos h.symm]
        omega
      · rw [if_neg h, if_neg (fun hc => h hc.symm)]
        omega

theorem sum_map_add {α : Type} (l : List α) (f g : α → Nat) :
    (l.map (fun x => f x + g x)).sum = (l.map f).sum + (l.map g).sum := by
  induction l with
  | nil => simp
  | cons x l' ih =>
      simp only [List.map_cons, List.sum_cons, ih]
      omega

/-- The total decrement count of `a` over `E` equals, edge by edge, the
number of occurrences in `E` of each prerequisite of `a`. -/
theorem decTotal_swap (deps : List (String × String)) (E : List String) (a : String) :
    decTotal deps E a =
      ((deps.filter (fun d => decide (d.1 = a))).map (fun d => E.count d.2)).sum := by
  induction deps with
  | nil => simp [decTotal, childrenOf]
  | cons d ds ih =>
      have hsplit : decTotal (d :: ds) E a =
          (E.map (fun q => (if d.2 = q then [d.1] else []).count a)).sum +
          decTotal ds E a := by
        simp only [decTotal, childrenOf_cons, List.count_append]
        exact sum_map_add E _ _
      rw [hsplit, ih]
      by_cases hda : d.1 = a
      · have ht : ∀ q, (if d.2 = q then [d.1] else []).count a =
            (if d.2 = q then 1 else 0) := by
          intro q
          by_cases h : d.2 = q <;> simp [h, hda]
        have hmap : (E.map (fun q => (if d.2 = q then [d.1] else []).count a)).sum =
            (E.map (fun q => if d.2 = q then 1 else 0)).sum := by
          simp only [ht]
        rw [hmap, sum_indicator_count]
        have hf : (d :: ds).filter (fun x => decide (x.1 = a)) =
            d :: ds.filter (fun x => decide (x.1 = a)) := by
          simp [List.filter_cons, hda]
        rw [hf, List.map_cons, List.sum_cons]
      · have had : ¬ a = d.1 := fun hc => hda hc.symm
        have ht : ∀ q, (if d.2 = q then [d.1] else []).count a = 0 := by
          intro q
          by_cases h : d.2 = q <;> simp [h, had]
        have hmap : (E.map (fun q => (if d.2 = q then [d.1] else []).count a)).sum = 0 := by
          simp only [ht]
          simp
        rw [hmap]
        have hf : (d :: ds).filter (fun x => decide (x.1 = a)) =
            ds.filter (fun x => decide (x.1 = a)) := by
          simp [List.filter_cons, hda]
        rw [hf]
        omega

/-! ### Deficiency lemmas: which prerequisites must have been processed -/

theorem all_prereqs_mem (deps : List (String × String)) (E : List String) (a : String)
    (hc : ∀ q, E.count q ≤ 1) (hd : inDeg deps a ≤ decTotal deps E a) :
    ∀ q, (a, q) ∈ deps → q ∈ E := by
  intro q hq
  have hswap := decTotal_swap deps E a
  have hone := sum_map_all_one (deps.filter (fun d => decide (d.1 = a)))
    (fun d => E.count d.2) (fun d _ => hc d.2) (by rw [← hswap]; exact hd)
  have hmem : (a, q) ∈ deps.filter (fun d => decide (d.1 = a)) := by
    simp [List.mem_filter, hq]
  have h1 : E.count q = 1 := hone (a, q) hmem
  exact List.count_pos_iff.mp (by omega)

theorem exists_missing_prereq (deps : List (String × String)) (E : List String)
    (a : String) (hd : decTotal deps E a < inDeg deps a) :
    ∃ q, (a, q) ∈ deps ∧ q ∉ E := by
  by_contra hno
  push_neg at hno
  have hall : ∀ d ∈ deps.filter (fun x => decide (x.1 = a)), 1 ≤ E.count d.2 := by
    intro d hdm
    simp only [List.mem_filter, decide_eq_true_eq] at hdm
    have : (a, d.2) ∈ deps := by
      have : d = (a, d.2) := by
        cases d
        simp at hdm ⊢
        exact hdm.2
      exact this ▸ hdm.1
    have hmem := hno d.2 this
    have hpos : 0 < E.count d.2 := List.count_pos_iff.mpr hmem
    omega
  have hlen := length_le_sum_map (deps.filter (fun x => decide (x.1 = a)))
    (fun d => E.count d.2) hall
  have hid : inDeg deps a ≤ decTotal deps E a := by
    rw [decTotal_swap]
    exact hlen
  omega

theorem prereqs_mem_decTotal_ge (deps : List (String × String)) (E : List String)
    (a : String) (hall : ∀ q, (a, q) ∈ deps → q ∈ E) :
    inDeg deps a ≤ decTotal deps E a := by
  rw [decTotal_swap]
  refine length_le_sum_map _ _ ?_
  intro d hdm
  simp only [List.mem_filter, decide_eq_true_eq] at hdm
  have hd : (a, d.2) ∈ deps := by
    have : d = (a, d.2) := by
      cases d
      simp at hdm ⊢
      exact hdm.2
    exact this ▸ hdm.1
  have := List.count_pos_iff.mpr (hall d.2 hd)
  omega

theorem decTotal_pos_edge (deps : List (String × String)) (E : List String)
    (a : String) (h : 0 < decTotal deps E a) :
    ∃ q ∈ E, (a, q) ∈ deps := by
  obtain ⟨q, hq, hpos⟩ := exists_pos_of_sum_pos E
    (fun q => (childrenOf deps q).count a) h
  refine ⟨q, hq, ?_⟩
  have : a ∈ childrenOf deps q := List.count_pos_iff.mp hpos
  exact (mem_childrenOf deps q a).mp this

/-! ### Reachability lemmas -/

theorem reach_mem_aliases (aliases : List String) (deps : List (String × String))
    (start : String) (HV1 : ∀ d ∈ deps, d.1 ∈ aliases) (hs : start ∈ aliases) :
    ∀ a, Reach deps start a → a ∈ aliases := by
  intro a h
  induction h with
  | refl => exact hs
  | tail _ hstep _ =>
      have := (mem_childrenOf deps _ _).mp hstep
      exact HV1 _ this

theorem reach_last_step (deps : List (String × String)) (start a : String)
    (h : Reach deps start a) :
    a = start ∨ ∃ q, Reach deps start q ∧ DepOn deps a q := by
  induction h with
  | refl => exact Or.inl rfl
  | tail hb hstep _ =>
      exact Or.inr ⟨_, hb, (mem_childrenOf deps _ _).mp hstep⟩

theorem reach_transGen_back (deps : List (String × String)) (start : String) :
    ∀ q, Reach deps start q → q = start ∨ Relation.TransGen (DepOn deps) q start := by
  intro q h
  induction h with
  | refl => exact Or.inl rfl
  | tail _ hstep ih =>
      right
      have hcb := (mem_childrenOf deps _ _).mp hstep
      rcases ih with h1 | h1
      · exact h1 ▸ Relation.TransGen.single hcb
      · exact Relation.TransGen.head hcb h1

/-- An edge out of the start node into the reachable subgraph closes a
dependency cycle through the start node. -/
theorem start_cycle (deps : List (String × String)) (start q : String)
    (hedge : DepOn deps start q) (hq : Reach deps start q) :
    Relation.TransGen (DepOn deps) start start := by
  rcases reach_transGen_back deps start q hq with h | h
  · subst h
    exact Relation.TransGen.single hedge
  · exact Relation.TransGen.head hedge h

/-- A node with a reachable in-degree witness: a reachable non-start node has
at least one declared prerequisite. -/
theorem reach_inDeg_pos (deps : List (String × String)) (start a : String)
    (h : Reach deps start a) (hne : a ≠ start) : 0 < inDeg deps a := by
  rcases reach_last_step deps start a h with h1 | ⟨q, _, hq⟩
  · exact absurd h1 hne
  · exact inDeg_pos_of_edge deps a q hq

/-! ### The layering of a built graph -/

/-- Instantiation of the master invariant at the entry point
`get_topo_sort (build_graph ...) start`. -/
theorem get_topo_sort_master (aliases : List String) (deps : List (String × String))
    (start : String) (m : NodeMap)
    (HV : ∀ d ∈ deps, d.1 ∈ aliases ∧ d.2 ∈ aliases)
    (Hs : start ∈ aliases)
    (Hm : build_graph aliases deps = some m) :
    (∀ a, (get_topo_sort m start).flatten.count a = List.count a [start] +
        (if 0 < inDeg deps a ∧
            inDeg deps a ≤ decTotal deps ((get_topo_sort m start).flatten) a
         then 1 else 0)) ∧
    (∀ L ∈ get_topo_sort m start, L.Nodup) ∧
    ((get_topo_sort m start)[0]? = some [start]) ∧
    (∀ k L, (get_topo_sort m start)[k + 1]? = some L →
        ∀ a ∈ L, inDeg deps a ≤
          decTotal deps (((get_topo_sort m start).take (k + 1)).flatten) a) ∧
    (∀ a ∈ (get_topo_sort m start).flatten, Reach deps start a) ∧
    mu m = deps.length := by
  have HV1 : ∀ d ∈ deps, d.1 ∈ aliases := fun d hd => (HV d hd).1
  obtain ⟨m', hm', hls', hmu'⟩ := build_graph_spec aliases deps HV
  have hmm : m' = m := by
    rw [Hm] at hm'
    injection hm' with h
    exact h.symm
  subst hmm
  have hls : LookState aliases deps
      (fun a => (inDeg deps a : Int) - (decTotal deps [] a : Int)) m' := by
    refine LookState_congr hls' (fun a => ?_)
    rw [decTotal_nil]
    simp
  have hRstep : ∀ q a, Reach deps start q → a ∈ childrenOf deps q →
      Reach deps start a :=
    fun q a hq ha => Relation.ReflTransGen.tail hq ha
  obtain ⟨h1, h2, h3, h4, h5⟩ := topoGoF_spec aliases deps HV1
    (Reach deps start) hRstep (mu m' + 1) m' [start] []
    (Nat.lt_succ_self _) hls
    (fun a ha => by simpa using (List.mem_singleton.mp ha) ▸ Hs)
    (List.nodup_singleton start)
    (fun a ha => (List.mem_singleton.mp ha) ▸ Relation.ReflTransGen.refl)
  refine ⟨fun a => ?_, h2, h3 (by simp), fun k L hk a haL => ?_, h5, hmu'⟩
  · have := h1 a
    rw [decTotal_nil] at this
    simpa using this
  · have := h4 k L hk a haL
    simpa using this

/-! ### Index utilities on the layer list -/

theorem mem_take_flatten_index (L : List (List String)) (n : Nat) (p : String)
    (h : p ∈ (L.take n).flatten) :
    ∃ i, i < n ∧ ∃ Li, L[i]? = some Li ∧ p ∈ Li := by
  obtain ⟨lp, hlp, hplp⟩ := List.mem_flatten.mp h
  obtain ⟨i, hi, hget⟩ := List.mem_iff_getElem.mp hlp
  have hlen : (L.take n).length = min n L.length := List.length_take n L
  have hin : i < n := by rw [hlen] at hi; omega
  have hiL : i < L.length := by rw [hlen] at hi; omega
  refine ⟨i, hin, lp, ?_, hplp⟩
  rw [List.getElem?_eq_getElem hiL]
  rw [← hget, @List.getElem_take _ L n i hi]

theorem take_flatten_count_le (L : List (List String)) (n : Nat) (a : String) :
    ((L.take n).flatten).count a ≤ (L.flatten).count a := by
  conv_rhs => rw [← List.take_append_drop n L]
  rw [List.flatten_append, List.count_append]
  omega

theorem take_flatten_subset (L : List (List String)) (n : Nat) (a : String)
    (h : a ∈ (L.take n).flatten) : a ∈ L.flatten := by
  have hle := take_flatten_count_le L n a
  have h1 := List.count_pos_iff.mpr h
  exact List.count_pos_iff.mp (by omega)

theorem two_le_sum_nat : ∀ (s : List Nat) (i j : Nat), i < j →
    ∀ x y, s[i]? = some x → s[j]? = some y → 1 ≤ x → 1 ≤ y → 2 ≤ s.sum := by
  intro s
  induction s with
  | nil => intro i j _ x y hx; simp at hx
  | cons z s' ih =>
      intro i j hij x y hx hy h1 h2
      cases i with
      | zero =>
          cases j with
          | zero => omega
          | succ j' =>
              rw [List.getElem?_cons_zero] at hx
              injection hx with hx
              rw [List.getElem?_cons_succ] at hy
              have hymem : y ∈ s' := List.getElem?_mem hy
              have := List.le_sum_of_mem hymem
              rw [List.sum_cons]
              omega
      | succ i' =>
          cases j with
          | zero => omega
          | succ j' =>
              rw [List.getElem?_cons_succ] at hx hy
              have := ih i' j' (by omega) x y hx hy h1 h2
              rw [List.sum_cons]
              omega

theorem two_mem_layers_count (L : List (List String)) (i j : Nat) (hij : i ≠ j)
    (Li Lj : List String) (hLi : L[i]? = some Li) (hLj : L[j]? = some Lj)
    (a : String) (hai : a ∈ Li) (haj : a ∈ Lj) : 2 ≤ (L.flatten).count a := by
  rw [List.count_flatten]
  have hsi : (L.map (List.count a))[i]? = some (Li.count a) := by
    rw [List.getElem?_map, hLi]
    rfl
  have hsj : (L.map (List.count a))[j]? = some (Lj.count a) := by
    rw [List.getElem?_map, hLj]
    rfl
  have h1 : 1 ≤ Li.count a := List.count_pos_iff.mpr hai
  have h2 : 1 ≤ Lj.count a := List.count_pos_iff.mpr haj
  rcases lt_or_gt_of_ne hij with h | h
  · exact two_le_sum_nat _ i j h _ _ hsi hsj h1 h2
  · exact two_le_sum_nat _ j i h _ _ hsj hsi h2 h1

/-! ### Emission counts under a start node free of cycles -/

theorem start_mem_emitted (aliases : List String) (deps : List (String × String))
    (start : String) (m : NodeMap)
    (HV : ∀ d ∈ deps, d.1 ∈ aliases ∧ d.2 ∈ aliases)
    (Hs : start ∈ aliases) (Hm : build_graph aliases deps = some m) :
    start ∈ (get_topo_sort m start).flatten := by
  obtain ⟨_, _, h3, _, _, _⟩ := get_topo_sort_master aliases deps start m HV Hs Hm
  exact List.mem_flatten.mpr ⟨[start], List.getElem?_mem h3, List.mem_singleton_self start⟩

/-- If no dependency cycle passes through the start node, no alias is ever
emitted twice: in particular the start node is not re-emitted. -/
theorem emitted_count_le_one (aliases : List String) (deps : List (String × String))
    (start : String) (m : NodeMap)
    (HV : ∀ d ∈ deps, d.1 ∈ aliases ∧ d.2 ∈ aliases)
    (Hs : start ∈ aliases) (Hm : build_graph aliases deps = some m)
    (Hnc : ¬ Relation.TransGen (DepOn deps) start start) :
    ∀ a, ((get_topo_sort m start).flatten).count a ≤ 1 := by
  obtain ⟨h1, _, _, _, h5, _⟩ := get_topo_sort_master aliases deps start m HV Hs Hm
  intro a
  rw [h1 a]
  by_cases ha : a = start
  · subst ha
    have hcond : ¬ (0 < inDeg deps a ∧
        inDeg deps a ≤ decTotal deps ((get_topo_sort m a).flatten) a) := by
      rintro ⟨hpos, hle⟩
      have hdp : 0 < decTotal deps ((get_topo_sort m a).flatten) a := by omega
      obtain ⟨q, hqE, hq⟩ := decTotal_pos_edge deps _ a hdp
      exact Hnc (start_cycle deps a q hq (h5 q hqE))
    rw [if_neg hcond]
    simp
  · have : List.count a [start] = 0 := by
      simp [List.count_singleton, ha]
    rw [this]
    split_ifs <;> omega

theorem emitted_layer_unique (aliases : List String) (deps : List (String × String))
    (start : String) (m : NodeMap)
    (HV : ∀ d ∈ deps, d.1 ∈ aliases ∧ d.2 ∈ aliases)
    (Hs : start ∈ aliases) (Hm : build_graph aliases deps = some m)
    (Hnc : ¬ Relation.TransGen (DepOn deps) start start)
    (i j : Nat) (Li Lj : List String)
    (hLi : (get_topo_sort m start)[i]? = some Li)
    (hLj : (get_topo_sort m start)[j]? = some Lj)
    (a : String) (hai : a ∈ Li) (haj : a ∈ Lj) : i = j := by
  by_contra hij
  have h2 := two_mem_layers_count (get_topo_sort m start) i j hij Li Lj hLi hLj a hai haj
  have h1 := emitted_count_le_one aliases deps start m HV Hs Hm Hnc a
  omega

/-- If no dependency cycle passes through the start node, every node lying on
a dependency cycle within the reachable subgraph is permanently excluded from
the phase list. -/
theorem cycle_nodes_excluded (aliases : List String) (deps : List (String × String))
    (start : String) (m : NodeMap)
    (HV : ∀ d ∈ deps, d.1 ∈ aliases ∧ d.2 ∈ aliases)
    (Hs : start ∈ aliases) (Hm : build_graph aliases deps = some m)
    (Hnc : ¬ Relation.TransGen (DepOn deps) start start) :
    ∀ c, Reach deps start c → Relation.TransGen (DepOn deps) c c →
      c ∉ (get_topo_sort m start).flatten := by
  obtain ⟨h1, h2, h3, h4, h5, h6⟩ := get_topo_sort_master aliases deps start m HV Hs Hm
  have keyN : ∀ N : Nat, ∀ k, k < N → ∀ c, Reach deps start c →
      Relation.TransGen (DepOn deps) c c →
      ∀ Lk, (get_topo_sort m start)[k]? = some Lk → c ∉ Lk := by
    intro N
    induction N with
    | zero => intro k hk; omega
    | succ n ihN =>
        intro k hk c hreach hcyc Lk hLk hcin
        cases k with
        | zero =>
            rw [h3] at hLk
            injection hLk with hLk
            subst hLk
            have hcs : c = start := List.mem_singleton.mp hcin
            subst hcs
            exact Hnc hcyc
        | succ j =>
            have hbound := h4 j Lk hLk c hcin
            have hcnt : ∀ q, (((get_topo_sort m start).take (j + 1)).flatten).count q ≤ 1 := by
              intro q
              have ht := take_flatten_count_le (get_topo_sort m start) (j + 1) q
              have h7 := emitted_count_le_one aliases deps start m HV Hs Hm Hnc q
              omega
            have hall := all_prereqs_mem deps _ c hcnt hbound
            obtain ⟨p, hcp, hpc⟩ := Relation.TransGen.head'_iff.mp hcyc
            have hpP : p ∈ ((get_topo_sort m start).take (j + 1)).flatten := hall p hcp
            obtain ⟨i, hin, Li, hLi, hpLi⟩ := mem_take_flatten_index _ (j + 1) p hpP
            have hpcyc : Relation.TransGen (DepOn deps) p p :=
              Relation.TransGen.tail' hpc hcp
            have hpreach : Reach deps start p :=
              h5 p (take_flatten_subset _ (j + 1) p hpP)
            exact ihN i (by omega) p hpreach hpcyc Li hLi hpLi
  intro c hreach hcyc hcE
  obtain ⟨Lc, hLc, hcLc⟩ := List.mem_flatten.mp hcE
  obtain ⟨i, hi, hgi⟩ := List.mem_iff_getElem.mp hLc
  exact keyN (i + 1) i (Nat.lt_succ_self i) c hreach hcyc Lc
    (by rw [List.getElem?_eq_getElem hi, hgi]) hcLc

/-- If the reachable subgraph is cycle-free and closed under prerequisites,
every reachable node is emitted. -/
theorem reachable_complete (aliases : List String) (deps : List (String × String))
    (start : String) (m : NodeMap)
    (HV : ∀ d ∈ deps, d.1 ∈ aliases ∧ d.2 ∈ aliases)
    (Hs : start ∈ aliases) (Hm : build_graph aliases deps = some m)
    (HNC : ∀ a, Reach deps start a → ¬ Relation.TransGen (DepOn deps) a a)
    (HCL : ∀ a, Reach deps start a → ∀ q, DepOn deps a q → Reach deps start q) :
    ∀ a, Reach deps start a → a ∈ (get_topo_sort m start).flatten := by
  obtain ⟨h1, h2, h3, h4, h5, h6⟩ := get_topo_sort_master aliases deps start m HV Hs Hm
  have HV1 : ∀ d ∈ deps, d.1 ∈ aliases := fun d hd => (HV d hd).1
  have hfin : {x : String | Reach deps start x}.Finite :=
    Set.Finite.subset (List.finite_toSet aliases)
      (fun x hx => reach_mem_aliases aliases deps start HV1 Hs x hx)
  haveI hfinS : Finite {x : String | Reach deps start x} := hfin.to_subtype
  have hwf : WellFounded (fun x y : {x : String | Reach deps start x} =>
      Relation.TransGen (DepOn deps) y.1 x.1) := by
    haveI : IsTrans {x : String | Reach deps start x}
        (fun x y => Relation.TransGen (DepOn deps) y.1 x.1) :=
      ⟨fun _ _ _ hxy hyz => Relation.TransGen.trans hyz hxy⟩
    haveI : IsIrrefl {x : String | Reach deps start x}
        (fun x y => Relation.TransGen (DepOn deps) y.1 x.1) :=
      ⟨fun x hx => HNC x.1 x.2 hx⟩
    exact Finite.wellFounded_of_trans_of_irrefl _
  intro a ha
  have main : ∀ x : {x : String | Reach deps start x},
      x.1 ∈ (get_topo_sort m start).flatten := by
    intro x
    refine @WellFounded.induction _ _ hwf
      (fun z => z.1 ∈ (get_topo_sort m start).flatten) x ?_
    intro y ih
    by_cases hys : y.1 = start
    · rw [hys]
      exact start_mem_emitted aliases deps start m HV Hs Hm
    · have hallq : ∀ q, (y.1, q) ∈ deps → q ∈ (get_topo_sort m start).flatten := by
        intro q hq
        have hqr : Reach deps start q := HCL y.1 y.2 q hq
        exact ih ⟨q, hqr⟩ (Relation.TransGen.single hq)
      have hge := prereqs_mem_decTotal_ge deps _ y.1 hallq
      have hpos := reach_inDeg_pos deps start y.1 y.2 hys
      have hcy := h1 y.1
      have hc0 : List.count y.1 [start] = 0 := by
        simp [List.count_singleton, hys]
      rw [hc0, if_pos ⟨hpos, hge⟩] at hcy
      exact List.count_pos_iff.mp (by omega)
  exact main ⟨a, ha⟩

/-- Phase ordering: a dependent is always emitted strictly after each of its
prerequisites (both reachable, reachable subgraph cycle-free). -/
theorem edge_phase_order (aliases : List String) (deps : List (String × String))
    (start : String) (m : NodeMap)
    (HV : ∀ d ∈ deps, d.1 ∈ aliases ∧ d.2 ∈ aliases)
    (Hs : start ∈ aliases) (Hm : build_graph aliases deps = some m)
    (HNC : ∀ a, Reach deps start a → ¬ Relation.TransGen (DepOn deps) a a) :
    ∀ d p, DepOn deps d p → Reach deps start d → Reach deps start p →
      ∀ (kd kp : Nat) (Ld Lp : List String),
        (get_topo_sort m start)[kd]? = some Ld →
        (get_topo_sort m start)[kp]? = some Lp → d ∈ Ld → p ∈ Lp → kp < kd := by
  obtain ⟨h1, h2, h3, h4, h5, h6⟩ := get_topo_sort_master aliases deps start m HV Hs Hm
  have Hnc : ¬ Relation.TransGen (DepOn deps) start start :=
    HNC start Relation.ReflTransGen.refl
  intro d p hdp hrd hrp kd kp Ld Lp hLd hLp hdLd hpLp
  have hdstart : d ≠ start := by
    intro he
    subst he
    exact Hnc (start_cycle deps d p hdp hrp)
  cases kd with
  | zero =>
      rw [h3] at hLd
      injection hLd with hLd
      subst hLd
      exact absurd (List.mem_singleton.mp hdLd) hdstart
  | succ j =>
      have hbound := h4 j Ld hLd d hdLd
      have hcnt : ∀ q, (((get_topo_sort m start).take (j + 1)).flatten).count q ≤ 1 := by
        intro q
        have ht := take_flatten_count_le (get_topo_sort m start) (j + 1) q
        have h7 := emitted_count_le_one aliases deps start m HV Hs Hm Hnc q
        omega
      have hall := all_prereqs_mem deps _ d hcnt hbound
      have hpP : p ∈ ((get_topo_sort m start).take (j + 1)).flatten := hall p hdp
      obtain ⟨i, hin, Li, hLi, hpLi⟩ := mem_take_flatten_index _ (j + 1) p hpP
      have : i = kp := emitted_layer_unique aliases deps start m HV Hs Hm Hnc
        i kp Li Lp hLi hLp p hpLi hpLp
      omega

/-! ### Exclusion filter

`filter_excluded_nodes` copies each phase into a set, removes the excluded
nodes and keeps the phase only if the copy is non-empty.  Phases are
modelled as duplicate-free name lists (as `get_topo_sort` produces within a
layer), so the `set(nodes)` copy plus `remove` is list filtering. -/

def filter_excluded_nodes (build_phases : List (List String))
    (exclude_aliases : List String) : List (List String) :=
  match build_phases with
  | [] => []
  | nodes :: rest =>
      if nodes.filter (fun n => decide (n ∉ exclude_aliases)) = [] then
        filter_excluded_nodes rest exclude_aliases
      else
        nodes.filter (fun n => decide (n ∉ exclude_aliases)) ::
          filter_excluded_nodes rest exclude_aliases

/-- Index of a phase after filtering: the number of earlier phases that keep
at least one node. -/
def filteredIndex (build_phases : List (List String))
    (exclude_aliases : List String) (i : Nat) : Nat :=
  ((build_phases.take i).filter
    (fun nodes => decide (nodes.filter (fun n => decide (n ∉ exclude_aliases)) ≠ []))).length

/-! ### Build records and status polling -/

/-- One entry of the `stages` list returned by the remote service. -/
structure StageEntry where
  name : String
deriving DecidableEq, Repr

/-- The stage-info blob returned by `jenkins.get_build_stages`; `stages` may
be the JSON literal `null` (`none` here). `durationMillis / 1000` is float
division in Python; durations are irrelevant to every claim, so the model
uses natural division. -/
structure StageInfo where
  status : String
  durationMillis : Nat
  stages : Option (List StageEntry)
deriving DecidableEq, Repr

/-- A `BuildItem` record of the source. -/
structure BuildItem where
  job_name : String
  build_num : Nat
  status : String
  stage : String
  duration : Nat
deriving DecidableEq, Repr

def RETRIES_COUNT_GET_BUILD_STAGE : Nat := 20

/-- `update_build_item_from_stage_info` from the source: copy status and
duration, and the last stage name when the stage list is non-empty. -/
def update_build_item_from_stage_info (item : BuildItem) (stage_info : StageInfo) :
    BuildItem :=
  match stage_info.stages with
  | none =>
      { item with status := stage_info.status,
                  duration := stage_info.durationMillis / 1000 }
  | some stages =>
      match stages.getLast? with
      | none =>
          { item with status := stage_info.status,
                      duration := stage_info.durationMillis / 1000 }
      | some e =>
          { item with status := stage_info.status,
                      duration := stage_info.durationMillis / 1000,
                      stage := e.name }

/-- The retry loop of `get_build_stage_info`: `fetch t` is the service
response at attempt `t` (`none` = empty/absent). Counts down the remaining
attempts; returns `none` when the bound is exhausted (the source then raises
`IOError`, which the caller catches). -/
def getStageInfoAux (fetch : Nat → Option StageInfo) :
    Nat → Nat → Option StageInfo
  | 0, _ => none
  | remaining + 1, try_count =>
      match fetch try_count with
      | some info => some info
      | none => getStageInfoAux fetch remaining (try_count + 1)

/-- `get_build_stage_info` from the source: retry up to
`RETRIES_COUNT_GET_BUILD_STAGE` times; `none` models the raised `IOError`. -/
def get_build_stage_info (fetch : Nat → Option StageInfo) : Option StageInfo :=
  getStageInfoAux fetch RETRIES_COUNT_GET_BUILD_STAGE 0

/-- One polling-tick update of a single build item (the body of the `for
item in build_items` loop in `build_phase`): terminal items are left alone;
otherwise the stage info is fetched with retry, and a raised error is caught
and turns the item's status into FAILED. -/
def tickItem (item : BuildItem) (fetch : Nat → Option StageInfo) : BuildItem :=
  if item.status ∈ (["FAILED", "ABORTED", "SUCCESS"] : List String) then item
  else
    match get_build_stage_info fetch with
    | some info => update_build_item_from_stage_info item info
    | none => { item with status := "FAILED" }

/-- The per-tick loop over all build items; `fetches i` is the response
stream for the item at position `i`. -/
def tickFrom (fetches : Nat → Nat → Option StageInfo) :
    List BuildItem → Nat → List BuildItem
  | [], _ => []
  | item :: rest, i => tickItem item (fetches i) :: tickFrom fetches rest (i + 1)

def tick (items : List BuildItem) (fetches : Nat → Nat → Option StageInfo) :
    List BuildItem :=
  tickFrom fetches items 0

/-- The `while True` polling loop of `build_phase`, with fuel bounding the
number of ticks the model can observe (the source loop is unbounded:
exhausted fuel, `none`, means the loop was still polling).
`sched t i a` is the service response for tick `t`, item `i`, retry
attempt `a`.  Returns the verdict that broke the loop and the final items. -/
def buildPhaseLoop (sched : Nat → Nat → Nat → Option StageInfo)
    (ignore_failed : Bool) :
    Nat → Nat → List BuildItem → Option (BuildStatus × List BuildItem)
  | 0, _, _ => none
  | fuel + 1, t, items =>
      let items' := tick items (sched t)
      let ps := resolve_statuses (items'.map (fun it => it.status)) ignore_failed
      if ps = BuildStatus.FAILED ∨ ps = BuildStatus.SUCCESS then some (ps, items')
      else buildPhaseLoop sched ignore_failed fuel (t + 1) items'

/-- Association-list lookup for the alias-to-job-name dict (`aliases[node.name]`
raises `KeyError` when absent, hence `Option`). -/
def lookupAlias : List (String × String) → String → Option String
  | [], _ => none
  | (k, v) :: rest, a => if k = a then some v else lookupAlias rest a

/-- `init_build_items` from the source: one record per node, with the next
build number from the service, status INITIATED and stage `?`. -/
def init_build_items (nodes : List String) (aliases : List (String × String))
    (nextBuildNum : String → Nat) : Option (List BuildItem) :=
  match nodes with
  | [] => some []
  | n :: rest =>
      match lookupAlias aliases n with
      | none => none
      | some jn =>
          match init_build_items rest aliases nextBuildNum with
          | none => none
          | some items =>
              some (⟨jn, nextBuildNum jn, "INITIATED", "?", 0⟩ :: items)

/-- `build_phase` from the source: create the records, trigger the jobs
(the trigger fan-out has no observable effect on the records), poll until
the aggregated verdict is FAILED or SUCCESS, then report FAILED only when
failures are not ignored, and IN_PROGRESS otherwise. `none` models a run
that raised or was still polling within the observed fuel. -/
def build_phase (nodes : List String) (aliases : List (String × String))
    (nextBuildNum : String → Nat) (sched : Nat → Nat → Nat → Option StageInfo)
    (ignore_failed : Bool) (fuel : Nat) : Option BuildStatus :=
  match init_build_items nodes aliases nextBuildNum with
  | none => none
  | some build_items =>
      match buildPhaseLoop sched ignore_failed fuel 0 build_items with
      | none => none
      | some (phase_status, _) =>
          if ignore_failed = false ∧ phase_status = BuildStatus.FAILED then
            some BuildStatus.FAILED
          else
            some BuildStatus.IN_PROGRESS

/-- The phase loop of `main`: run the phases in order with the given
per-phase results, stop at the first FAILED result, and report the final
status together with the number of phases actually executed. -/
def run_phases : List BuildStatus → BuildStatus × Nat
  | [] => (BuildStatus.SUCCESS, 0)
  | r :: rest =>
      if r = BuildStatus.FAILED then (BuildStatus.FAILED, 1)
      else ((run_phases rest).1, (run_phases rest).2 + 1)

/-! ### Supporting lemmas for the claims -/

theorem addEdge_lookup_none (m : NodeMap) (d : String × String) (m' : NodeMap)
    (h : addEdge m d = some m') (x : String) (hx : lookupNode m x = none) :
    lookupNode m' x = none := by
  unfold addEdge at h
  cases h1 : lookupNode m d.1 with
  | none => rw [h1] at h; simp at h
  | some v1 =>
      cases h2 : lookupNode m d.2 with
      | none => rw [h1, h2] at h; simp at h
      | some v2 =>
          rw [h1, h2] at h
          injection h with h
          subst h
          by_cases hx1 : x = d.1
          · rw [hx1] at hx
            rw [hx] at h1
            cases h1
          · by_cases hx2 : x = d.2
            · rw [hx2] at hx
              rw [hx] at h2
              cases h2
            · rw [lookupNode_updateNode, if_neg hx1, lookupNode_updateNode, if_neg hx2]
              exact hx

theorem addEdges_lookup_none :
    ∀ (rest : List (String × String)) (m m' : NodeMap),
      addEdges m rest = some m' → ∀ x, lookupNode m x = none →
      lookupNode m' x = none := by
  intro rest
  induction rest with
  | nil =>
      intro m m' h x hx
      injection h with h
      exact h ▸ hx
  | cons d rest' ih =>
      intro m m' h x hx
      unfold addEdges at h
      cases he : addEdge m d with
      | none => rw [he] at h; simp at h
      | some m₁ =>
          rw [he] at h
          exact ih m₁ m' h x (addEdge_lookup_none m d m₁ he x hx)

theorem build_graph_lookup_none (aliases : List String)
    (deps : List (String × String)) (g : NodeMap)
    (h : build_graph aliases deps = some g) (x : String) (hx : x ∉ aliases) :
    lookupNode g x = none := by
  have h0 : lookupNode (initNodes [] aliases) x = none := by
    have hspec := initNodes_spec aliases [] [] (fun b => by simp [lookupNode]) x
    simp only [List.not_mem_nil, false_or] at hspec
    rw [hspec, if_neg hx]
  exact addEdges_lookup_none deps (initNodes [] aliases) g h x h0

/-! Filter lemmas -/

theorem filteredIndex_zero (phases : List (List String)) (excl : List String) :
    filteredIndex phases excl 0 = 0 := rfl

theorem filteredIndex_succ (P : List String) (rest : List (List String))
    (excl : List String) (i : Nat) :
    filteredIndex (P :: rest) excl (i + 1) =
      (if P.filter (fun n => decide (n ∉ excl)) = [] then 0 else 1) +
        filteredIndex rest excl i := by
  unfold filteredIndex
  rw [List.take_succ_cons, List.filter_cons]
  by_cases h : P.filter (fun n => decide (n ∉ excl)) = []
  · rw [if_pos h, decide_eq_false (fun hc => hc h)]
    simp only [Bool.false_eq_true, if_false]
    omega
  · rw [if_neg h, decide_eq_true h]
    simp only [if_true]
    rw [List.length_cons]
    omega

theorem filter_excluded_nodes_removes (build_phases : List (List String))
    (excl : List String) :
    ∀ L ∈ filter_excluded_nodes build_phases excl, ∀ n ∈ L, n ∉ excl := by
  induction build_phases with
  | nil => intro L hL; simp [filter_excluded_nodes] at hL
  | cons P rest ih =>
      intro L hL n hn
      unfold filter_excluded_nodes at hL
      by_cases h : P.filter (fun x => decide (x ∉ excl)) = []
      · rw [if_pos h] at hL
        exact ih L hL n hn
      · rw [if_neg h] at hL
        rcases List.mem_cons.mp hL with h1 | h1
        · subst h1
          have := List.of_mem_filter hn
          simpa using this
        · exact ih L h1 n hn

theorem filter_excluded_nodes_index (excl : List String) :
    ∀ (build_phases : List (List String)) (i : Nat) (L : List String),
      build_phases[i]? = some L →
      L.filter (fun n => decide (n ∉ excl)) ≠ [] →
      (filter_excluded_nodes build_phases excl)[filteredIndex build_phases excl i]? =
        some (L.filter (fun n => decide (n ∉ excl))) := by
  intro build_phases
  induction build_phases with
  | nil => intro i L h; simp at h
  | cons P rest ih =>
      intro i L hL hkeep
      cases i with
      | zero =>
          rw [List.getElem?_cons_zero] at hL
          injection hL with hL
          subst hL
          rw [filteredIndex_zero]
          unfold filter_excluded_nodes
          rw [if_neg hkeep]
          exact List.getElem?_cons_zero
      | succ i' =>
          rw [List.getElem?_cons_succ] at hL
          rw [filteredIndex_succ]
          unfold filter_excluded_nodes
          by_cases h : P.filter (fun n => decide (n ∉ excl)) = []
          · rw [if_pos h, if_pos h]
            simp only [Nat.zero_add]
            exact ih i' L hL hkeep
          · rw [if_neg h, if_neg h]
            have : (1 : Nat) + filteredIndex rest excl i' =
                filteredIndex rest excl i' + 1 := by omega
            rw [this, List.getElem?_cons_succ]
            exact ih i' L hL hkeep

/-! Polling lemmas -/

theorem getStageInfoAux_none (fetch : Nat → Option StageInfo)
    (h : ∀ t, fetch t = none) :
    ∀ (remaining try_count : Nat), getStageInfoAux fetch remaining try_count = none := by
  intro remaining
  induction remaining with
  | zero => intro t; rfl
  | succ n ih =>
      intro t
      unfold getStageInfoAux
      rw [h t]
      exact ih (t + 1)

theorem get_build_stage_info_none (fetch : Nat → Option StageInfo)
    (h : ∀ t, fetch t = none) : get_build_stage_info fetch = none :=
  getStageInfoAux_none fetch h RETRIES_COUNT_GET_BUILD_STAGE 0

theorem tickFrom_getElem (fetches : Nat → Nat → Option StageInfo) :
    ∀ (items : List BuildItem) (k i : Nat),
      (tickFrom fetches items k)[i]? =
        (items[i]?).map (fun it => tickItem it (fetches (k + i))) := by
  intro items
  induction items with
  | nil => intro k i; simp [tickFrom]
  | cons item rest ih =>
      intro k i
      cases i with
      | zero => simp [tickFrom]
      | succ i' =>
          unfold tickFrom
          rw [List.getElem?_cons_succ, List.getElem?_cons_succ, ih (k + 1) i']
          have : k + 1 + i' = k + (i' + 1) := by omega
          rw [this]

/-! ## Claim theorems -/

/-- C2 (amended): for every list of job status strings and every value of the
ignore-failed flag, `resolve_statuses` returns SUCCESS iff the list is
non-empty and every status equals SUCCESS; returns FAILED iff some status
equals FAILED, or (ignore-failed is false and some status equals ABORTED);
and returns IN_PROGRESS otherwise.  (The original claim omitted the
non-emptiness condition in the SUCCESS clause.) -/
theorem resolve_statuses_spec (statuses : List String) (ignore_failed : Bool) :
    (resolve_statuses statuses ignore_failed = BuildStatus.SUCCESS ↔
      statuses ≠ [] ∧ ∀ s ∈ statuses, s = "SUCCESS") ∧
    (resolve_statuses statuses ignore_failed = BuildStatus.FAILED ↔
      ((∃ s ∈ statuses, s = "FAILED") ∨
        (ignore_failed = false ∧ ∃ s ∈ statuses, s = "ABORTED"))) ∧
    (resolve_statuses statuses ignore_failed = BuildStatus.IN_PROGRESS ↔
      (¬ (statuses ≠ [] ∧ ∀ s ∈ statuses, s = "SUCCESS") ∧
       ¬ ((∃ s ∈ statuses, s = "FAILED") ∨
          (ignore_failed = false ∧ ∃ s ∈ statuses, s = "ABORTED")))) := by
  have hallsucc : (statuses.count "SUCCESS" = statuses.length) ↔
      (∀ s ∈ statuses, s = "SUCCESS") := by
    rw [List.count_eq_length]
    constructor
    · intro h s hs
      exact (h s hs).symm
    · intro h s hs
      exact (h s hs).symm
  have hfailed : (0 < statuses.count "FAILED") ↔ (∃ s ∈ statuses, s = "FAILED") := by
    rw [List.count_pos_iff]
    constructor
    · intro h
      exact ⟨_, h, rfl⟩
    · rintro ⟨s, hs, rfl⟩
      exact hs
  have haborted : (0 < statuses.count "ABORTED") ↔ (∃ s ∈ statuses, s = "ABORTED") := by
    rw [List.count_pos_iff]
    constructor
    · intro h
      exact ⟨_, h, rfl⟩
    · rintro ⟨s, hs, rfl⟩
      exact hs
  have hBiff : ((ignore_failed = false ∧ 0 < statuses.count "ABORTED") ∨
      0 < statuses.count "FAILED") ↔
      ((∃ s ∈ statuses, s = "FAILED") ∨
        (ignore_failed = false ∧ ∃ s ∈ statuses, s = "ABORTED")) := by
    rw [hfailed, haborted]
    exact or_comm
  have hdisj : (statuses ≠ [] ∧ ∀ s ∈ statuses, s = "SUCCESS") →
      ¬ ((∃ s ∈ statuses, s = "FAILED") ∨
         (ignore_failed = false ∧ ∃ s ∈ statuses, s = "ABORTED")) := by
    rintro ⟨_, hall⟩ (⟨s, hs, rfl⟩ | ⟨_, s, hs, rfl⟩)
    · exact absurd (hall _ hs) (by decide)
    · exact absurd (hall _ hs) (by decide)
  unfold resolve_statuses
  by_cases h1 : statuses ≠ [] ∧ statuses.count "SUCCESS" = statuses.length
  · rw [if_pos h1]
    have hA : statuses ≠ [] ∧ ∀ s ∈ statuses, s = "SUCCESS" := ⟨h1.1, hallsucc.mp h1.2⟩
    exact ⟨iff_of_true rfl hA, iff_of_false (by decide) (hdisj hA),
      iff_of_false (by decide) (fun hc => hc.1 hA)⟩
  · rw [if_neg h1]
    by_cases h2 : (ignore_failed = false ∧ 0 < statuses.count "ABORTED") ∨
        0 < statuses.count "FAILED"
    · rw [if_pos h2]
      refine ⟨iff_of_false (by decide) ?_, iff_of_true rfl (hBiff.mp h2),
        iff_of_false (by decide) (fun hc => hc.2 (hBiff.mp h2))⟩
      intro hA
      exact h1 ⟨hA.1, hallsucc.mpr hA.2⟩
    · rw [if_neg h2]
      refine ⟨iff_of_false (by decide) ?_, iff_of_false (by decide) ?_,
        iff_of_true rfl ⟨?_, ?_⟩⟩
      · intro hA
        exact h1 ⟨hA.1, hallsucc.mpr hA.2⟩
      · intro hB
        exact h2 (hBiff.mpr hB)
      · intro hA
        exact h1 ⟨hA.1, hallsucc.mpr hA.2⟩
      · intro hB
        exact h2 (hBiff.mpr hB)

/-- C2 counterexample: on the empty status list every status vacuously
equals SUCCESS, yet `resolve_statuses` returns IN_PROGRESS, not SUCCESS
(the guard `statuses and ...` fails on an empty list). -/
theorem resolve_statuses_empty_cex :
    (∀ s ∈ ([] : List String), s = "SUCCESS") ∧
    resolve_statuses [] false = BuildStatus.IN_PROGRESS ∧
    resolve_statuses [] false ≠ BuildStatus.SUCCESS := by
  refine ⟨by simp, by decide, by decide⟩

/-! ### Concrete graphs used as counterexamples and witnesses -/

/-- Edges `b ← a` and `b ← c`: `b` is reachable from `a` but has the
unreachable prerequisite `c`. -/
def cexDeps1 : List (String × String) := [("b", "a"), ("b", "c")]

def cexGraph1 : NodeMap := (build_graph ["a", "b", "c"] cexDeps1).getD []

/-- The two-cycle `a ↔ b`, entered at `a`. -/
def cexDeps2 : List (String × String) := [("a", "b"), ("b", "a")]

def cexGraph2 : NodeMap := (build_graph ["a", "b"] cexDeps2).getD []

/-- The single edge `b ← a`. -/
def witDeps1 : List (String × String) := [("b", "a")]

def witGraph1 : NodeMap := (build_graph ["a", "b"] witDeps1).getD []

/-- Edge `b ← a` plus the two-cycle `b ↔ c`, entered at `a`. -/
def witDeps3 : List (String × String) := [("b", "a"), ("b", "c"), ("c", "b")]

def witGraph3 : NodeMap := (build_graph ["a", "b", "c"] witDeps3).getD []

/-- An edge list admitting a rank function that decreases along every edge
(dependent to prerequisite) has no dependency cycle at all. -/
theorem no_cycle_of_rank (deps : List (String × String)) (rank : String → Nat)
    (h : ∀ d ∈ deps, rank d.2 < rank d.1) :
    ∀ a, ¬ Relation.TransGen (DepOn deps) a a := by
  have key : ∀ a b, Relation.TransGen (DepOn deps) a b → rank b < rank a := by
    intro a b hab
    induction hab with
    | single hd => exact h _ hd
    | tail _ hd ih => exact lt_trans (h _ hd) ih
  intro a ha
  exact lt_irrefl _ (key a a ha)

/-- C1 (amended): when the whole reachable subgraph is cycle-free AND closed
under prerequisites (every prerequisite of a reachable node is itself
reachable), the phase list contains every reachable alias exactly once and
orders every reachable edge prerequisite-first.  (The original claim assumed
only cycle-freeness; a reachable node with an unreachable prerequisite is
silently dropped, see the counterexample.) -/
theorem topo_sort_correct (aliases : List String) (deps : List (String × String))
    (start : String) (m : NodeMap)
    (HV : ∀ d ∈ deps, d.1 ∈ aliases ∧ d.2 ∈ aliases)
    (Hs : start ∈ aliases)
    (Hm : build_graph aliases deps = some m)
    (HNC : ∀ a, Reach deps start a → ¬ Relation.TransGen (DepOn deps) a a)
    (HCL : ∀ a, Reach deps start a → ∀ q, DepOn deps a q → Reach deps start q) :
    (∀ a, Reach deps start a → ((get_topo_sort m start).flatten).count a = 1) ∧
    (∀ d p, DepOn deps d p → Reach deps start d → Reach deps start p →
      ∀ (kd kp : Nat) (Ld Lp : List String),
        (get_topo_sort m start)[kd]? = some Ld →
        (get_topo_sort m start)[kp]? = some Lp → d ∈ Ld → p ∈ Lp → kp < kd) := by
  have Hnc : ¬ Relation.TransGen (DepOn deps) start start :=
    HNC start Relation.ReflTransGen.refl
  constructor
  · intro a ha
    have hmem := reachable_complete aliases deps start m HV Hs Hm HNC HCL a ha
    have hle := emitted_count_le_one aliases deps start m HV Hs Hm Hnc a
    have hpos : 0 < ((get_topo_sort m start).flatten).count a :=
      List.count_pos_iff.mpr hmem
    omega
  · exact edge_phase_order aliases deps start m HV Hs Hm HNC

/-- C1 witness: single edge `b ← a` from `a`: both reachable aliases are
emitted exactly once. -/
theorem topo_sort_correct_witness :
    ((get_topo_sort witGraph1 "a").flatten).count "a" = 1 ∧
    ((get_topo_sort witGraph1 "a").flatten).count "b" = 1 := by
  have h := (topo_sort_correct ["a", "b"] witDeps1 "a" witGraph1
    (by decide) (by decide) (by decide)
    (fun x _ => no_cycle_of_rank witDeps1
      (fun s => if s = "b" then 1 else 0) (by decide) x)
    (fun a _ q hq => by
      have hbq : a = "b" ∧ q = "a" := by
        simpa [DepOn, witDeps1, Prod.ext_iff] using hq
      exact hbq.2 ▸ Relation.ReflTransGen.refl)).1
  refine ⟨h "a" Relation.ReflTransGen.refl, h "b" ?_⟩
  exact Relation.ReflTransGen.single
    (show ("b" : String) ∈ childrenOf witDeps1 "a" by decide)

/-- C1 counterexample: edges `b ← a`, `b ← c` from start `a`: no dependency
cycle exists anywhere, `b` is reachable from `a`, yet the phase list `[[a]]`
omits `b` (its prerequisite `c` is unreachable, so its counter never reaches
zero). -/
theorem topo_sort_missing_reachable_cex :
    (∀ x, ¬ Relation.TransGen (DepOn cexDeps1) x x) ∧
    Reach cexDeps1 "a" "b" ∧
    build_graph ["a", "b", "c"] cexDeps1 = some cexGraph1 ∧
    get_topo_sort cexGraph1 "a" = [["a"]] ∧
    ((get_topo_sort cexGraph1 "a").flatten).count "b" = 0 := by
  refine ⟨no_cycle_of_rank cexDeps1
    (fun s => if s = "b" then 1 else 0) (by decide), ?_, by decide, by decide, by decide⟩
  exact Relation.ReflTransGen.single
    (show ("b" : String) ∈ childrenOf cexDeps1 "a" by decide)

/-- C3 (amended): `get_topo_sort` always terminates — the layer count is
bounded by the edge count plus one, and any larger fuel yields the same
layers — and, provided no dependency cycle passes through the start node
itself, every reachable node lying on a dependency cycle is permanently
excluded from the phase list.  (The original claim covered every cycle; a
cycle through the start node is entered anyway, because the start node is
enqueued unconditionally — see the counterexample, where both cycle nodes
are emitted.) -/
theorem topo_sort_cycles_excluded (aliases : List String)
    (deps : List (String × String)) (start : String) (m : NodeMap)
    (HV : ∀ d ∈ deps, d.1 ∈ aliases ∧ d.2 ∈ aliases)
    (Hs : start ∈ aliases) (Hm : build_graph aliases deps = some m)
    (Hnc : ¬ Relation.TransGen (DepOn deps) start start) :
    (get_topo_sort m start).length ≤ deps.length + 1 ∧
    (∀ extra, topoGoF (mu m + 1 + extra) m [start] = get_topo_sort m start) ∧
    (∀ c, Reach deps start c → Relation.TransGen (DepOn deps) c c →
      c ∉ (get_topo_sort m start).flatten) := by
  obtain ⟨_, _, _, _, _, h6⟩ := get_topo_sort_master aliases deps start m HV Hs Hm
  refine ⟨?_, fun extra => ?_, cycle_nodes_excluded aliases deps start m HV Hs Hm Hnc⟩
  · have := topoGoF_length (mu m + 1) m [start]
    show (topoGoF (mu m + 1) m [start]).length ≤ deps.length + 1
    omega
  · exact topoGoF_fuel_stable (mu m + 1 + extra) (mu m + 1) m [start]
      (by omega) (by omega)

/-- C3 witness: edge `b ← a` plus the cycle `b ↔ c`, from `a`: the layering
terminates within the fuel bound, is fuel-stable, and the reachable cycle
node `b` never appears. -/
theorem topo_sort_cycles_excluded_witness :
    (get_topo_sort witGraph3 "a").length ≤ witDeps3.length + 1 ∧
    topoGoF (mu witGraph3 + 1 + 5) witGraph3 ["a"] = get_topo_sort witGraph3 "a" ∧
    "b" ∉ (get_topo_sort witGraph3 "a").flatten := by
  have h := topo_sort_cycles_excluded ["a", "b", "c"] witDeps3 "a" witGraph3
    (by decide) (by decide) (by decide) ?hnc
  case hnc =>
    intro hcyc
    obtain ⟨q, hq, _⟩ := Relation.TransGen.head'_iff.mp hcyc
    simp [DepOn, witDeps3, Prod.ext_iff] at hq
  refine ⟨h.1, h.2.1 5, h.2.2 "b" ?_ ?_⟩
  · exact Relation.ReflTransGen.single
      (show ("b" : String) ∈ childrenOf witDeps3 "a" by decide)
  · have hbc : DepOn witDeps3 "b" "c" := by
      show ("b", "c") ∈ witDeps3
      decide
    have hcb : DepOn witDeps3 "c" "b" := by
      show ("c", "b") ∈ witDeps3
      decide
    exact Relation.TransGen.head hbc (Relation.TransGen.single hcb)

/-- C3 counterexample: the two-cycle `a ↔ b` entered at its own node `a`:
both cycle nodes are reachable and on a cycle, yet both appear in the phase
list `[[a], [b], [a]]` — cycle nodes are NOT excluded when the cycle passes
through the start node. -/
theorem cycle_through_start_emitted_cex :
    Relation.TransGen (DepOn cexDeps2) "a" "a" ∧
    Relation.TransGen (DepOn cexDeps2) "b" "b" ∧
    Reach cexDeps2 "a" "a" ∧
    build_graph ["a", "b"] cexDeps2 = some cexGraph2 ∧
    get_topo_sort cexGraph2 "a" = [["a"], ["b"], ["a"]] ∧
    "a" ∈ (get_topo_sort cexGraph2 "a").flatten ∧
    "b" ∈ (get_topo_sort cexGraph2 "a").flatten := by
  have hab : DepOn cexDeps2 "a" "b" := by
    show ("a", "b") ∈ cexDeps2
    decide
  have hba : DepOn cexDeps2 "b" "a" := by
    show ("b", "a") ∈ cexDeps2
    decide
  exact ⟨Relation.TransGen.head hab (Relation.TransGen.single hba),
    Relation.TransGen.head hba (Relation.TransGen.single hab),
    Relation.ReflTransGen.refl, by decide, by decide, by decide, by decide⟩

/-- C4 (amended): in the phase list each layer is duplicate-free, every node
other than the start node appears in at most one phase, and the start node
appears in at most two phases.  (The original claim bounded every node,
including the start node, by one appearance; a cycle through the start node
re-emits it, see the counterexample.) -/
theorem topo_sort_at_most_two (aliases : List String)
    (deps : List (String × String)) (start : String) (m : NodeMap)
    (HV : ∀ d ∈ deps, d.1 ∈ aliases ∧ d.2 ∈ aliases)
    (Hs : start ∈ aliases) (Hm : build_graph aliases deps = some m) :
    (∀ a, a ≠ start → ((get_topo_sort m start).flatten).count a ≤ 1) ∧
    ((get_topo_sort m start).flatten).count start ≤ 2 ∧
    (∀ L ∈ get_topo_sort m start, L.Nodup) := by
  obtain ⟨h1, h2, _, _, _, _⟩ := get_topo_sort_master aliases deps start m HV Hs Hm
  refine ⟨fun a ha => ?_, ?_, h2⟩
  · rw [h1 a]
    have hc0 : List.count a [start] = 0 := by
      simp [List.count_singleton, ha]
    rw [hc0]
    split_ifs <;> omega
  · rw [h1 start]
    have hc1 : List.count start [start] = 1 := by simp
    rw [hc1]
    split_ifs <;> omega

/-- C4 witness: single edge `b ← a` from `a`: the bounds hold and the layer
`[a]` is duplicate-free. -/
theorem topo_sort_at_most_two_witness :
    ((get_topo_sort witGraph1 "a").flatten).count "b" ≤ 1 ∧
    ((get_topo_sort witGraph1 "a").flatten).count "a" ≤ 2 ∧
    List.Nodup ["a"] := by
  have h := topo_sort_at_most_two ["a", "b"] witDeps1 "a" witGraph1
    (by decide) (by decide) (by decide)
  exact ⟨h.1 "b" (by decide), h.2.1, h.2.2 ["a"] (by decide)⟩

/-- C4 counterexample: the two-cycle `a ↔ b` entered at `a`: the start node
occurs in two distinct phases (count 2 in the flattened layer list). -/
theorem node_in_two_phases_cex :
    get_topo_sort cexGraph2 "a" = [["a"], ["b"], ["a"]] ∧
    ((get_topo_sort cexGraph2 "a").flatten).count "a" = 2 :=
  ⟨by decide, by decide⟩

/-- C5 (amended): applying the exclusion filter removes exactly the excluded
nodes from each phase; a phase that keeps at least one node reappears at the
index given by the number of earlier phases that also keep a node (phases
emptied entirely are dropped, shifting later phases down); every non-excluded
node stays in its phase's filtered node set.  (The original claim said the
phase index never changes, which fails when an earlier phase is emptied.) -/
theorem filter_excluded_nodes_spec (build_phases : List (List String))
    (exclude_aliases : List String) :
    (∀ L ∈ filter_excluded_nodes build_phases exclude_aliases,
      ∀ n ∈ L, n ∉ exclude_aliases) ∧
    (∀ (i : Nat) (L : List String), build_phases[i]? = some L →
      L.filter (fun n => decide (n ∉ exclude_aliases)) ≠ [] →
      (filter_excluded_nodes build_phases
          exclude_aliases)[filteredIndex build_phases exclude_aliases i]? =
        some (L.filter (fun n => decide (n ∉ exclude_aliases)))) ∧
    (∀ (i : Nat) (L : List String) (n : String), build_phases[i]? = some L →
      n ∈ L → n ∉ exclude_aliases →
      n ∈ L.filter (fun x => decide (x ∉ exclude_aliases))) := by
  refine ⟨filter_excluded_nodes_removes build_phases exclude_aliases,
    fun i L hL hk => filter_excluded_nodes_index exclude_aliases build_phases i L hL hk,
    fun i L n _ hn hne => List.mem_filter.mpr ⟨hn, by simpa using hne⟩⟩

/-- C5 witness: phases `[[A], [B, C]]` with `C` excluded: phase 1 keeps
`[B]` at the same filtered index 1. -/
theorem filter_excluded_nodes_spec_witness :
    (filter_excluded_nodes [["A"], ["B", "C"]]
        ["C"])[filteredIndex [["A"], ["B", "C"]] ["C"] 1]? = some ["B"] := by
  have h := (filter_excluded_nodes_spec [["A"], ["B", "C"]] ["C"]).2.1 1 ["B", "C"]
    (by decide) (by decide)
  exact h

/-- C5 counterexample: phases `[[A], [B]]` with `A` excluded: phase 0 is
emptied and dropped, so the non-excluded node `B`, originally at phase
index 1, is no longer at index 1 (the result is `[[B]]`). -/
theorem filter_excluded_nodes_shift_cex :
    (([["A"], ["B"]] : List (List String)))[1]? = some ["B"] ∧
    ("B" : String) ∉ (["A"] : List String) ∧
    filter_excluded_nodes [["A"], ["B"]] ["A"] = [["B"]] ∧
    (filter_excluded_nodes [["A"], ["B"]] ["A"])[1]? = none := by
  refine ⟨by decide, by decide, by decide, by decide⟩

/-- C6: when the status-fetch retry bound is exhausted for one job (every
attempt returns no data), that job's record status is forced to FAILED (the
raised error is caught inside the tick, not propagated), and every other
record in the same tick is still updated exactly as it would be on its own. -/
theorem retry_exhaustion_isolated (items : List BuildItem)
    (fetches : Nat → Nat → Option StageInfo) (i : Nat) (item : BuildItem)
    (hit : items[i]? = some item)
    (hnone : ∀ t, fetches i t = none)
    (hnt : item.status ∉ (["FAILED", "ABORTED", "SUCCESS"] : List String)) :
    (tick items fetches)[i]? = some { item with status := "FAILED" } ∧
    (∀ (j : Nat) (other : BuildItem), j ≠ i → items[j]? = some other →
      (tick items fetches)[j]? = some (tickItem other (fetches j))) := by
  constructor
  · rw [tick, tickFrom_getElem, hit]
    simp only [Option.map_some', Nat.zero_add]
    rw [tickItem, if_neg hnt, get_build_stage_info_none (fetches i) hnone]
  · intro j other _ hother
    rw [tick, tickFrom_getElem, hother]
    simp [Nat.zero_add]

/-- C6 witness: of two INITIATED records, the first sees only absent
responses and degrades to FAILED; the second is updated normally. -/
theorem retry_exhaustion_isolated_witness :
    (tick [⟨"job-a", 1, "INITIATED", "?", 0⟩, ⟨"job-b", 2, "INITIATED", "?", 0⟩]
        (fun i _ => if i = 0 then none else some ⟨"SUCCESS", 1000, none⟩))[0]? =
      some ⟨"job-a", 1, "FAILED", "?", 0⟩ ∧
    (tick [⟨"job-a", 1, "INITIATED", "?", 0⟩, ⟨"job-b", 2, "INITIATED", "?", 0⟩]
        (fun i _ => if i = 0 then none else some ⟨"SUCCESS", 1000, none⟩))[1]? =
      some (tickItem ⟨"job-b", 2, "INITIATED", "?", 0⟩
        ((fun (i : Nat) (_ : Nat) =>
          if i = 0 then none else some (⟨"SUCCESS", 1000, none⟩ : StageInfo)) 1)) := by
  have h := retry_exhaustion_isolated
    [⟨"job-a", 1, "INITIATED", "?", 0⟩, ⟨"job-b", 2, "INITIATED", "?", 0⟩]
    (fun i _ => if i = 0 then none else some ⟨"SUCCESS", 1000, none⟩)
    0 ⟨"job-a", 1, "INITIATED", "?", 0⟩ (by decide) (fun t => rfl) (by decide)
  exact ⟨h.1, h.2 1 ⟨"job-b", 2, "INITIATED", "?", 0⟩ (by decide) (by decide)⟩

/-- C7 (amended): with the ignore-failed flag set, whenever `build_phase`
returns at all it returns IN_PROGRESS — never FAILED — so the driver
proceeds to the next phase.  (The original claim also asserted this for
phases whose items are only ABORTED; in that case the verdict never becomes
FAILED or SUCCESS and the polling loop never exits, see the
counterexample.) -/
theorem ignore_failed_never_failed (nodes : List String)
    (aliases : List (String × String)) (nextBuildNum : String → Nat)
    (sched : Nat → Nat → Nat → Option StageInfo) (fuel : Nat) (r : BuildStatus)
    (h : build_phase nodes aliases nextBuildNum sched true fuel = some r) :
    r = BuildStatus.IN_PROGRESS := by
  unfold build_phase at h
  cases hinit : init_build_items nodes aliases nextBuildNum with
  | none =>
      rw [hinit] at h
      cases h
  | some items =>
      rw [hinit] at h
      cases hloop : buildPhaseLoop sched true fuel 0 items with
      | none =>
          simp only [hloop] at h
          cases h
      | some pr =>
          simp only [hloop] at h
          have hcond : ¬ ((true : Bool) = false ∧ pr.1 = BuildStatus.FAILED) := by
            simp
          rw [if_neg hcond] at h
          injection h with h
          exact h.symm

/-- C7 witness: a single job that immediately reports FAILED, with
ignore-failed set: the phase verdict is FAILED, and `build_phase` reports
IN_PROGRESS to the driver. -/
theorem ignore_failed_never_failed_witness :
    build_phase ["a"] [("a", "job-a")] (fun _ => 1)
      (fun _ _ _ => some ⟨"FAILED", 0, none⟩) true 2 = some BuildStatus.IN_PROGRESS := by
  cases hr : build_phase ["a"] [("a", "job-a")] (fun _ => 1)
      (fun _ _ _ => some ⟨"FAILED", 0, none⟩) true 2 with
  | none => exact absurd hr (by decide)
  | some r =>
      rw [ignore_failed_never_failed ["a"] [("a", "job-a")] (fun _ => 1)
        (fun _ _ _ => some ⟨"FAILED", 0, none⟩) 2 r hr]

/-- C7 counterexample: a phase whose build items include an ABORTED one (and
no FAILED), with ignore-failed set: every tick leaves the items unchanged and
the verdict is IN_PROGRESS, so the loop never breaks — `build_phase` does
not return IN_PROGRESS to the driver; it does not return at all (here: not
within 100 ticks, from a tick-invariant state). -/
theorem ignore_failed_aborted_hangs_cex :
    resolve_statuses ["ABORTED", "SUCCESS"] true = BuildStatus.IN_PROGRESS ∧
    tick [⟨"j1", 1, "ABORTED", "?", 0⟩, ⟨"j2", 2, "SUCCESS", "?", 0⟩]
        (fun _ _ => some ⟨"SUCCESS", 0, none⟩) =
      [⟨"j1", 1, "ABORTED", "?", 0⟩, ⟨"j2", 2, "SUCCESS", "?", 0⟩] ∧
    buildPhaseLoop (fun _ _ _ => some ⟨"SUCCESS", 0, none⟩) true 100 0
      [⟨"j1", 1, "ABORTED", "?", 0⟩, ⟨"j2", 2, "SUCCESS", "?", 0⟩] = none := by
  refine ⟨by decide, by decide, by decide⟩

/-- C8: the driver executes phases strictly in order; at the first FAILED
result it executes no later phase and the final verdict is FAILED (the pair's
second component counts the phases executed); if no phase returns FAILED it
executes all phases and the final verdict is SUCCESS. -/
theorem run_phases_spec (results : List BuildStatus) :
    ((∀ r ∈ results, r ≠ BuildStatus.FAILED) →
      run_phases results = (BuildStatus.SUCCESS, results.length)) ∧
    (∀ i : Nat, results[i]? = some BuildStatus.FAILED →
      (∀ j : Nat, j < i → results[j]? ≠ some BuildStatus.FAILED) →
      run_phases results = (BuildStatus.FAILED, i + 1)) := by
  induction results with
  | nil =>
      refine ⟨fun _ => rfl, fun i hi => ?_⟩
      simp at hi
  | cons r rest ih =>
      constructor
      · intro hall
        have hr : r ≠ BuildStatus.FAILED := hall r (List.mem_cons_self r rest)
        have := ih.1 (fun x hx => hall x (List.mem_cons_of_mem r hx))
        unfold run_phases
        rw [if_neg hr, this]
        rfl
      · intro i hi hprev
        cases i with
        | zero =>
            rw [List.getElem?_cons_zero] at hi
            injection hi with hi
            unfold run_phases
            rw [if_pos hi]
        | succ i' =>
            rw [List.getElem?_cons_succ] at hi
            have hr : r ≠ BuildStatus.FAILED := by
              intro hc
              exact hprev 0 (Nat.succ_pos i') (by rw [List.getElem?_cons_zero, hc])
            have hprev' : ∀ j : Nat, j < i' → rest[j]? ≠ some BuildStatus.FAILED := by
              intro j hj
              have := hprev (j + 1) (by omega)
              rwa [List.getElem?_cons_succ] at this
            have := ih.2 i' hi hprev'
            unfold run_phases
            rw [if_neg hr, this]

/-- C8 witness: with results `[IN_PROGRESS, FAILED, IN_PROGRESS]` the driver
stops after the second phase with final verdict FAILED. -/
theorem run_phases_spec_witness :
    run_phases [BuildStatus.IN_PROGRESS, BuildStatus.FAILED, BuildStatus.IN_PROGRESS] =
      (BuildStatus.FAILED, 2) := by
  refine (run_phases_spec
    [BuildStatus.IN_PROGRESS, BuildStatus.FAILED, BuildStatus.IN_PROGRESS]).2 1
    (by decide) ?_
  intro j hj
  have hj0 : j = 0 := by omega
  subst hj0
  decide

/-- C9: if a dependency edge references an alias missing from the alias map,
or the start-point alias is missing, then the plan computation fails
(`build_graph` raises on the edge lookup, or `graph.get(start)` yields `None`
and the layering raises) — all before `build_phase`, which contains every
job-related service call, can run. -/
theorem undeclared_alias_plan_none (aliases : List String)
    (deps : List (String × String)) (start : String)
    (h : (∃ d ∈ deps, d.1 ∉ aliases ∨ d.2 ∉ aliases) ∨ start ∉ aliases) :
    plan_phases aliases deps start = none := by
  rcases h with hbad | hstart
  · rw [plan_phases, build_graph_none aliases deps hbad]
  · cases hb : build_graph aliases deps with
    | none => rw [plan_phases, hb]
    | some g =>
        rw [plan_phases, hb]
        simp only [build_graph_lookup_none aliases deps g hb start hstart]

/-- C9 witness: the dependency `(b, a)` references the undeclared alias `b`,
so planning fails. -/
theorem undeclared_alias_plan_none_witness :
    plan_phases ["a"] [("b", "a")] "a" = none :=
  undeclared_alias_plan_none ["a"] [("b", "a")] "a" (Or.inl ⟨("b", "a"), by decide, by decide⟩)

/-- C10: `build_phase` never returns SUCCESS: whenever it returns, the result
is FAILED exactly when the ignore-failed flag is false and the polling loop's
aggregated verdict is FAILED, and IN_PROGRESS in every other case — including
when every job succeeded. -/
theorem build_phase_never_success (nodes : List String)
    (aliases : List (String × String)) (nextBuildNum : String → Nat)
    (sched : Nat → Nat → Nat → Option StageInfo) (ignore_failed : Bool)
    (fuel : Nat) (r : BuildStatus)
    (h : build_phase nodes aliases nextBuildNum sched ignore_failed fuel = some r) :
    r ≠ BuildStatus.SUCCESS ∧
    (r = BuildStatus.FAILED ↔ ignore_failed = false ∧
      ∃ items final, init_build_items nodes aliases nextBuildNum = some items ∧
        buildPhaseLoop sched ignore_failed fuel 0 items =
          some (BuildStatus.FAILED, final)) := by
  unfold build_phase at h
  cases hinit : init_build_items nodes aliases nextBuildNum with
  | none =>
      rw [hinit] at h
      cases h
  | some items =>
      rw [hinit] at h
      cases hloop : buildPhaseLoop sched ignore_failed fuel 0 items with
      | none =>
          simp only [hloop] at h
          cases h
      | some pr =>
          simp only [hloop] at h
          by_cases hc : ignore_failed = false ∧ pr.1 = BuildStatus.FAILED
          · rw [if_pos hc] at h
            injection h with h
            subst h
            refine ⟨by decide, iff_of_true rfl ⟨hc.1, items, pr.2, rfl, ?_⟩⟩
            rw [← hc.2]
            exact hloop
          · rw [if_neg hc] at h
            injection h with h
            subst h
            refine ⟨by decide, iff_of_false (by decide) ?_⟩
            rintro ⟨hig, items', final, hinit', hloop'⟩
            injection hinit' with hinit'
            subst hinit'
            rw [hloop] at hloop'
            injection hloop' with hloop'
            exact hc ⟨hig, by rw [hloop']⟩

/-- C10 witness: a single job that immediately reports SUCCESS, with
fail-fast semantics (`ignore_failed = false`): `build_phase` still returns
IN_PROGRESS, not SUCCESS. -/
theorem build_phase_never_success_witness :
    (BuildStatus.IN_PROGRESS ≠ BuildStatus.SUCCESS ∧
      (BuildStatus.IN_PROGRESS = BuildStatus.FAILED ↔ false = false ∧
        ∃ items final,
          init_build_items ["a"] [("a", "job-a")] (fun _ => 1) = some items ∧
          buildPhaseLoop (fun _ _ _ => some ⟨"SUCCESS", 0, none⟩) false 2 0 items =
            some (BuildStatus.FAILED, final))) :=
  build_phase_never_success ["a"] [("a", "job-a")] (fun _ => 1)
    (fun _ _ _ => some ⟨"SUCCESS", 0, none⟩) false 2 BuildStatus.IN_PROGRESS (by decide)

end JenkinsBT
